import Mathlib

/-!
Verification of the git-anon history rewriting tool.

The Rust sources (src/lib.rs, src/config.rs, src/git.rs, src/anonymize.rs,
src/main.rs) are shallowly embedded below.  A git repository is modelled as an
explicit state: an object store mapping commit ids to commit data, a branch
reference store, a symbolic HEAD, a remote tracking store, a reflog, and a
fresh-id counter standing for the content-addressed id of the next created
object.  The libgit2 revision walk used by GitOps::collect_commits and
GitOps::squash_all_commits enumerates commits in the default libgit2 order
(reverse chronological: repeatedly pop the pending commit with the greatest
commit time, then enqueue its parents), which is modelled by walkAux below.
Fallible operations return an Except value paired with the post state, since
a Rust early return leaves all repository mutations made so far in place.
Object-creation failures of the underlying store are modelled by the failOids
fault set of the state.
-/

namespace GitAnon

/-- An identity: a name and an email, as in config.rs (Identity) and
lib.rs (AnonymousIdentity).  The two Rust structs have identical fields and
are collapsed into one Lean structure. -/
structure Identity where
  name : String
  email : String
deriving DecidableEq

/-- The data of one commit object: parent ids, tree id, message, author,
committer and commit time (the read-only CommitNode view of the spec). -/
structure CommitData where
  parents : List Nat
  tree : Nat
  message : String
  author : Identity
  committer : Identity
  time : Nat
deriving DecidableEq

/-- Association-list lookup, used for the object store, the branch store and
the rewrite mapping. -/
def lookupA {α β : Type} [DecidableEq α] : List (α × β) → α → Option β
  | [], _ => none
  | (k, v) :: rest, q => if k = q then some v else lookupA rest q

/-- The full mutable state of a repository as seen by git-anon. -/
structure RepoState where
  commits : List (Nat × CommitData)
  branches : List (String × Nat)
  headBranch : String
  remoteRefs : List ((String × String) × Nat)
  remotes : List String
  reflog : List String
  pushes : List (String × String × Bool)
  nextOid : Nat
  now : Nat
  dirty : Bool
  failOids : List Nat
  gcCount : Nat
deriving DecidableEq

/-- Look up a commit in the object store. -/
def lookupC (cs : List (Nat × CommitData)) (k : Nat) : Option CommitData :=
  lookupA cs k

/-- Look up a branch target, as libgit2 find_branch plus Reference::target. -/
def lookupBr (brs : List (String × Nat)) (b : String) : Option Nat :=
  lookupA brs b

/-- Retarget a branch in the reference store. -/
def setBr (brs : List (String × Nat)) (b : String) (v : Nat) :
    List (String × Nat) :=
  brs.map (fun nv => if nv.1 = b then (nv.1, v) else nv)

/-- GitOps::current_branch: read the shorthand of HEAD.  Fails when HEAD does
not resolve (unborn branch). -/
def current_branchE (s : RepoState) : Except String String :=
  match lookupBr s.branches s.headBranch with
  | some _ => Except.ok s.headBranch
  | none => Except.error "could not resolve HEAD"

/-- The commit id HEAD points at, when it resolves. -/
def headTip (s : RepoState) : Option Nat :=
  lookupBr s.branches s.headBranch

/-- GitOps::has_uncommitted_changes: any index or working-tree modification
(untracked and ignored files excluded). -/
def has_uncommitted_changes (s : RepoState) : Bool :=
  s.dirty

/-- Repository::commit with no update_ref: create a commit object and return
its id; the branch store and reflog are untouched.  Creation fails exactly
when the id the store would assign is in the fault set failOids. -/
def createCommit (s : RepoState) (author committer : Identity)
    (message : String) (tree : Nat) (parents : List Nat) :
    Except String Nat × RepoState :=
  if s.nextOid ∈ s.failOids then
    (Except.error "object creation failed", s)
  else
    (Except.ok s.nextOid,
      { s with
        commits := (s.nextOid,
          ⟨parents, tree, message, author, committer, s.now⟩) :: s.commits
        nextOid := s.nextOid + 1 })

/-- Branch::get_mut().set_target, preceded by find_branch: retarget an
existing local branch and append to the reflog; fails when the branch does
not exist. -/
def setTarget (s : RepoState) (b : String) (v : Nat) (msg : String) :
    Except String Unit × RepoState :=
  match lookupBr s.branches b with
  | none => (Except.error "branch not found", s)
  | some _ =>
    (Except.ok (),
      { s with branches := setBr s.branches b v, reflog := msg :: s.reflog })

/-- Repository::branch with force = false: create a new branch at a commit;
fails when a branch with that name already exists. -/
def createBranchAt (s : RepoState) (name : String) (c : Nat) :
    Except String Unit × RepoState :=
  if (lookupBr s.branches name).isSome then
    (Except.error "branch already exists", s)
  else
    (Except.ok (),
      { s with
        branches := (name, c) :: s.branches
        reflog := ("branch: Created " ++ name) :: s.reflog })

/-- GitOps::create_backup_branch: peel HEAD to a commit and create the named
branch there. -/
def create_backup_branch (s : RepoState) (name : String) :
    Except String Unit × RepoState :=
  match headTip s with
  | none => (Except.error "could not resolve HEAD", s)
  | some t =>
    if (lookupC s.commits t).isSome then
      createBranchAt s name t
    else
      (Except.error "could not peel HEAD to a commit", s)

/-- GitOps::get_remote_tracking_branch: read the target of
refs/remotes/REMOTE/BRANCH, None when the reference is absent (never an
error). -/
def get_remote_tracking_branch (s : RepoState) (remote branch : String) :
    Option Nat :=
  lookupA s.remoteRefs (remote, branch)

/-- GitOps::push_to_remote: find the remote and push the refspec.  Modelled
as recording the push; it mutates no local branch, commit or reflog. -/
def push_to_remote (s : RepoState) (remote branch : String) (force : Bool) :
    Except String Unit × RepoState :=
  if remote ∈ s.remotes then
    (Except.ok (), { s with pushes := (remote, branch, force) :: s.pushes })
  else
    (Except.error "remote not found", s)

/-- Commit time used by the revision walk priority queue; commits absent from
the store never enter the queue. -/
def keyTime (cs : List (Nat × CommitData)) (o : Nat) : Nat :=
  match lookupC cs o with
  | some c => c.time
  | none => 0

/-- Pop candidate of the libgit2 revision walk: the pending commit with the
greatest commit time (the first such, on ties). -/
def pickMax (cs : List (Nat × CommitData)) : List Nat → Option Nat
  | [] => none
  | x :: rest =>
    match pickMax cs rest with
    | none => some x
    | some y => if keyTime cs x < keyTime cs y then some y else some x

/-- Filter deciding whether a parent discovered by the walk is enqueued: it
must exist in the store and not be hidden, already visited, or already
pending. -/
def freshParent (cs : List (Nat × CommitData))
    (hiddenL frontier visited : List Nat) (p : Nat) : Bool :=
  (lookupC cs p).isSome && decide (p ∉ visited) && decide (p ∉ frontier) &&
    decide (p ∉ hiddenL)

/-- The libgit2 revision walk in its default (GIT_SORT_NONE) order: the same
reverse chronological order as git log.  Repeatedly emit the pending commit
with the greatest commit time and enqueue its not-yet-seen, not-hidden
parents.  Fuel bounds the number of steps; with fuel at least the store size
the walk always drains its queue. -/
def walkAux (cs : List (Nat × CommitData)) (hiddenL : List Nat) :
    Nat → List Nat → List Nat → List Nat
  | 0, _, _ => []
  | fuel + 1, frontier, visited =>
    match pickMax cs frontier with
    | none => []
    | some x =>
      match lookupC cs x with
      | none => []
      | some c =>
        x :: walkAux cs hiddenL fuel
          (frontier.erase x ++
            c.parents.filter (freshParent cs hiddenL frontier visited))
          (x :: visited)

/-- All commits reachable from a given commit (the commit itself included),
as a list; used to model revwalk hide, which marks a commit and all of its
ancestors uninteresting. -/
def reachListC (cs : List (Nat × CommitData)) (h : Nat) : List Nat :=
  walkAux cs [] cs.length [h] []

/-- GitOps::collect_commits: a revision walk pushed at HEAD, hiding the
commits reachable from since_commit when one is given.  Fails when HEAD does
not resolve, the tip object is missing, or the since id does not parse to an
object. -/
def collectE (s : RepoState) (since : Option Nat) :
    Except String (List Nat) :=
  match headTip s with
  | none => Except.error "could not resolve HEAD"
  | some tip =>
    if (lookupC s.commits tip).isSome then
      match since with
      | none => Except.ok (walkAux s.commits [] s.commits.length [tip] [])
      | some h =>
        if (lookupC s.commits h).isSome then
          let hid := reachListC s.commits h
          Except.ok (walkAux s.commits hid s.commits.length
            (if tip ∈ hid then [] else [tip]) [])
        else
          Except.error "could not find the since commit"
    else
      Except.error "could not find the tip commit"

/-- GitOps::count_commits_to_anonymize. -/
def count_commits_to_anonymize (s : RepoState) (since : Option Nat) :
    Except String Nat :=
  (collectE s since).map List.length

/-- GitOps::squash_all_commits: enumerate from HEAD (with REVERSE sorting, so
oldest first; only emptiness of the walk is consumed), take the tree of the
commit HEAD points at, create one new commit with that tree, no parents, the
given identity as author and committer and the given message, then retarget
the named branch to it. -/
def squash_all_commits (ident : Identity) (message : String) (branch : String)
    (s : RepoState) : Except String Unit × RepoState :=
  match collectE s none with
  | Except.error e => (Except.error e, s)
  | Except.ok l =>
    if l.reverse = [] then
      (Except.error "No commits found in repository", s)
    else
      match headTip s with
      | none => (Except.error "could not resolve HEAD", s)
      | some tip =>
        match lookupC s.commits tip with
        | none => (Except.error "could not find the tip commit", s)
        | some c =>
          match createCommit s ident ident message c.tree [] with
          | (Except.error e, s1) => (Except.error e, s1)
          | (Except.ok newOid, s1) =>
            setTarget s1 branch newOid "Squashed all commits"

/-- One-by-one rewrite loop of GitOps::anonymize_commits over the commits in
processing order (oldest first): look the commit up, build the new parent
list by mapping each original parent through the rewrite mapping and keeping
it only when the mapped commit can be found, create the new commit with the
original tree and message and the given identity, and record the mapping
entry.  Any lookup or creation failure aborts the remaining traversal. -/
def anonLoop (ident : Identity) :
    List Nat → List (Nat × Nat) → RepoState →
      Except String (List (Nat × Nat)) × RepoState
  | [], m, s => (Except.ok m, s)
  | oid :: rest, m, s =>
    match lookupC s.commits oid with
    | none => (Except.error "commit not found", s)
    | some c =>
      let newParents := c.parents.filterMap (fun pid =>
        (lookupA m pid).bind (fun no =>
          if (lookupC s.commits no).isSome then some no else none))
      match createCommit s ident ident c.message c.tree newParents with
      | (Except.error e, s1) => (Except.error e, s1)
      | (Except.ok no, s1) => anonLoop ident rest ((oid, no) :: m) s1

/-- GitOps::anonymize_commits: collect the commits to rewrite, return 0 at
once when there are none, run the rewrite loop over them oldest first, and
finally retarget the named branch to the rewritten counterpart of the newest
collected commit when the mapping has one. -/
def anonymize_commits (ident : Identity) (branch : String)
    (since : Option Nat) (s : RepoState) : Except String Nat × RepoState :=
  match collectE s since with
  | Except.error e => (Except.error e, s)
  | Except.ok l =>
    match l with
    | [] => (Except.ok 0, s)
    | first :: _ =>
      match anonLoop ident l.reverse [] s with
      | (Except.error e, s1) => (Except.error e, s1)
      | (Except.ok m, s1) =>
        match lookupA m first with
        | some newHead =>
          match setTarget s1 branch newHead "Anonymized commits" with
          | (Except.error e, s2) => (Except.error e, s2)
          | (Except.ok _, s2) => (Except.ok l.length, s2)
        | none => (Except.ok l.length, s1)

/-- GitAnon::squash (src/anonymize.rs): resolve the current branch, refuse a
dirty working tree, report and stop on dry run, stop cleanly when the user
declines the confirmation, then create the timestamped backup branch and run
the squash primitive. -/
def squash (ident : Identity) (message : Option String)
    (noConfirm dryRun userConfirms : Bool) (s : RepoState) :
    Except String Unit × RepoState :=
  match current_branchE s with
  | Except.error e => (Except.error e, s)
  | Except.ok branch =>
    if has_uncommitted_changes s then
      (Except.error
        "Uncommitted changes detected. Please commit or stash them first.", s)
    else
      let msg := message.getD "Initial commit"
      if dryRun then
        (Except.ok (), s)
      else if !noConfirm && !userConfirms then
        (Except.ok (), s)
      else
        let backupBranch := "backup-" ++ branch ++ "-" ++ toString s.now
        match create_backup_branch s backupBranch with
        | (Except.error e, s1) => (Except.error e, s1)
        | (Except.ok _, s1) => squash_all_commits ident msg branch s1

/-- GitAnon::push (src/anonymize.rs): resolve the current branch, default the
branch argument to it, refuse a dirty tree, resolve the remote tracking tip
as the lower bound, count the commits to rewrite, stop when the count is 0,
report and stop on dry run, then anonymize and push.  No backup branch is
created on this path. -/
def push (ident : Identity) (remote : String) (branchArg : Option String)
    (force dryRun : Bool) (s : RepoState) : Except String Unit × RepoState :=
  match current_branchE s with
  | Except.error e => (Except.error e, s)
  | Except.ok currentBranch =>
    let branch := branchArg.getD currentBranch
    if has_uncommitted_changes s then
      (Except.error
        "Uncommitted changes detected. Please commit or stash them first.", s)
    else
      let since := get_remote_tracking_branch s remote branch
      match count_commits_to_anonymize s since with
      | Except.error e => (Except.error e, s)
      | Except.ok count =>
        if count = 0 then
          (Except.ok (), s)
        else if dryRun then
          (Except.ok (), s)
        else
          match anonymize_commits ident branch since s with
          | (Except.error e, s1) => (Except.error e, s1)
          | (Except.ok _, s1) => push_to_remote s1 remote branch force

/-- The reflog expire and aggressive gc subprocesses run at the end of
GitAnon::clean; failures of the subprocesses themselves are ignored by the
Rust code (only their spawning is fallible), so this is modelled as always
succeeding. -/
def cleanupHistory (s : RepoState) : RepoState :=
  { s with reflog := [], gcCount := s.gcCount + 1 }

/-- GitAnon::clean (src/anonymize.rs): report and stop on dry run, stop when
the user declines, then resolve the current branch, create the timestamped
pre-clean backup branch, squash everything with message "Initial commit" and
purge the reflog and object store.  Note that no uncommitted-changes check is
performed on this path. -/
def clean (ident : Identity) (noConfirm dryRun userConfirms : Bool)
    (s : RepoState) : Except String Unit × RepoState :=
  if dryRun then
    match current_branchE s with
    | Except.error e => (Except.error e, s)
    | Except.ok _ => (Except.ok (), s)
  else if !noConfirm && !userConfirms then
    (Except.ok (), s)
  else
    match current_branchE s with
    | Except.error e => (Except.error e, s)
    | Except.ok branch =>
      let backupBranch := "pre-clean-backup-" ++ toString s.now
      match create_backup_branch s backupBranch with
      | (Except.error e, s1) => (Except.error e, s1)
      | (Except.ok _, s1) =>
        match squash_all_commits ident "Initial commit" branch s1 with
        | (Except.error e, s2) => (Except.error e, s2)
        | (Except.ok _, s2) => (Except.ok (), cleanupHistory s2)

/-- RemoteConfig (src/config.rs): a git remote name plus the identity key to
use when pushing to that remote. -/
structure RemoteConfig where
  rname : String
  identity : String
deriving DecidableEq

/-- Config (src/config.rs): the default identity plus the remote bindings. -/
structure Config where
  default_identity : Identity
  remotes : List (String × RemoteConfig)
deriving DecidableEq

/-- Config::get_identity: the only recognized identity key is the literal
string default_identity; every other key resolves to nothing. -/
def Config.get_identity (cfg : Config) (name : String) : Option Identity :=
  if name = "default_identity" then
    some ⟨cfg.default_identity.name, cfg.default_identity.email⟩
  else
    none

/-- Config::get_remote_identity: look the remote binding up, resolve its
identity key through get_identity, and fall back to the default identity. -/
def Config.get_remote_identity (cfg : Config) (remote : String) : Identity :=
  ((lookupA cfg.remotes remote).bind
    (fun rc => cfg.get_identity rc.identity)).getD
    ⟨cfg.default_identity.name, cfg.default_identity.email⟩

/-- The identity key stored by the add-remote command (src/main.rs,
handle_config, ConfigAction::AddRemote) when none is given. -/
def addRemoteDefaultKey : String := "anonymous_identity"

/-- ConfigAction::AddRemote handling in src/main.rs: insert or update a
remote binding, defaulting the identity key to anonymous_identity. -/
def Config.addRemote (cfg : Config) (aliasName remoteName : String)
    (identity : Option String) : Config :=
  { cfg with
    remotes :=
      (aliasName, ⟨remoteName, identity.getD addRemoteDefaultKey⟩) :: cfg.remotes }

/-- Reachability along parent links, restricted to commits present in the
store and avoiding the ids listed in bad: ReachU cs bad a t holds when t can
be reached from a by following parent links while every visited id is in the
store and outside bad.  Plain git reachability is ReachU cs []. -/
inductive ReachU (cs : List (Nat × CommitData)) (bad : List Nat) :
    Nat → Nat → Prop
  | refl : ∀ a, a ∉ bad → (lookupC cs a).isSome = true → ReachU cs bad a a
  | step : ∀ a c b t, a ∉ bad → lookupC cs a = some c → b ∈ c.parents →
      ReachU cs bad b t → ReachU cs bad a t

/-- Strict child-over-parent commit time monotonicity: every commit carries a
strictly greater commit time than each of its parents present in the store. -/
def strictTimesB (cs : List (Nat × CommitData)) : Bool :=
  cs.all (fun kc => kc.2.parents.all (fun p =>
    match lookupC cs p with
    | some pc => decide (pc.time < kc.2.time)
    | none => true))

/-- Every commit in the store has a duplicate-free parent list. -/
def wfParentsB (cs : List (Nat × CommitData)) : Bool :=
  cs.all (fun kc => decide kc.2.parents.Nodup)

/-- Every id in the object store is below the fresh-id counter, so newly
created objects never collide with existing ones. -/
def wfFreshB (s : RepoState) : Bool :=
  s.commits.all (fun kc => decide (kc.1 < s.nextOid))

/-- Proposition form of wfFreshB. -/
def wfFresh (s : RepoState) : Prop :=
  ∀ kc ∈ s.commits, kc.1 < s.nextOid

/-- Proposition form of wfParentsB. -/
def wfParents (cs : List (Nat × CommitData)) : Prop :=
  ∀ kc ∈ cs, kc.2.parents.Nodup

/-- Proposition form of strictTimesB: every commit has a strictly greater
commit time than each of its parents present in the store. -/
def StrictT (cs : List (Nat × CommitData)) : Prop :=
  ∀ k ck p cp, lookupC cs k = some ck → p ∈ ck.parents →
    lookupC cs p = some cp → cp.time < ck.time

/-- Every value of the rewrite mapping refers to a commit present in the
store. -/
def mapVals (m : List (Nat × Nat)) (cs : List (Nat × CommitData)) : Prop :=
  ∀ p v, lookupA m p = some v → (lookupC cs v).isSome = true

/-- Invariant of the revision walk: the pending queue is duplicate free and
every pending id is present in the store, unvisited and not hidden. -/
def WalkInv (cs : List (Nat × CommitData))
    (hiddenL frontier visited : List Nat) : Prop :=
  frontier.Nodup ∧
  (∀ f ∈ frontier, (lookupC cs f).isSome = true) ∧
  (∀ f ∈ frontier, f ∉ visited) ∧
  (∀ f ∈ frontier, f ∉ hiddenL)

/-- Number of store keys not yet visited; the termination measure of the
revision walk. -/
def countNV (cs : List (Nat × CommitData)) (visited : List Nat) : Nat :=
  ((cs.map Prod.fst).filter (fun k => decide (k ∉ visited))).length

/-- A fixed identity used by the concrete example repositories. -/
def exIdent : Identity := ⟨"Anonymous", "anonymous@example.com"⟩

/-- A clean repository with a single root commit on branch main. -/
def sOne : RepoState :=
  { commits := [(0, ⟨[], 100, "m", exIdent, exIdent, 1⟩)]
    branches := [("main", 0)]
    headBranch := "main"
    remoteRefs := []
    remotes := ["origin"]
    reflog := []
    pushes := []
    nextOid := 1
    now := 7
    dirty := false
    failOids := []
    gcCount := 0 }

/-- The same single-commit repository with a dirty working tree. -/
def sDirty : RepoState :=
  { sOne with dirty := true }

/-- A two-commit chain: commit 1 on top of root commit 0, branch main. -/
def sTwo : RepoState :=
  { commits :=
      [(1, ⟨[0], 101, "second", exIdent, exIdent, 2⟩),
       (0, ⟨[], 100, "first", exIdent, exIdent, 1⟩)]
    branches := [("main", 1)]
    headBranch := "main"
    remoteRefs := []
    remotes := ["origin"]
    reflog := []
    pushes := []
    nextOid := 2
    now := 7
    dirty := false
    failOids := []
    gcCount := 0 }

/-- The two-commit chain with the fault set making the first object creation
of a rewrite fail. -/
def sTwoFail : RepoState :=
  { sTwo with failOids := [2] }

/-- A merge history with skewed commit times: tip 3 (time 200) merges
branch commit 2 (time 50) and commit 1 (time 150), and commit 2 also has
commit 1 as its parent.  The default time-ordered walk emits 3, 1, 2, so the
oldest-first processing order 2, 1, 3 rewrites commit 2 before its parent
commit 1. -/
def sSkew : RepoState :=
  { commits :=
      [(3, ⟨[2, 1], 103, "merge", exIdent, exIdent, 200⟩),
       (2, ⟨[1], 102, "branch", exIdent, exIdent, 50⟩),
       (1, ⟨[], 101, "base", exIdent, exIdent, 150⟩)]
    branches := [("main", 3)]
    headBranch := "main"
    remoteRefs := []
    remotes := ["origin"]
    reflog := []
    pushes := []
    nextOid := 4
    now := 9
    dirty := false
    failOids := []
    gcCount := 0 }

/-- A two-branch repository: HEAD is main at commit 1 (child of 0), and a
second branch other still points at commit 0. -/
def sTwoBr : RepoState :=
  { sTwo with branches := [("main", 1), ("other", 0)] }

theorem lookupA_cons_self {α β : Type} [DecidableEq α] (k : α) (v : β)
    (l : List (α × β)) : lookupA ((k, v) :: l) k = some v := by
  simp [lookupA]

theorem lookupA_mem {α β : Type} [DecidableEq α] {l : List (α × β)} {k : α}
    {v : β} (h : lookupA l k = some v) : (k, v) ∈ l := by
  induction l with
  | nil => simp [lookupA] at h
  | cons kv rest ih =>
    obtain ⟨k0, v0⟩ := kv
    by_cases hk : k0 = k
    · subst hk
      simp [lookupA] at h
      simp [h]
    · simp [lookupA, hk] at h
      exact List.mem_cons_of_mem _ (ih h)

theorem lookupA_some_ne_nil {α β : Type} [DecidableEq α] {l : List (α × β)}
    {k : α} {v : β} (h : lookupA l k = some v) : l ≠ [] := by
  intro he
  subst he
  simp [lookupA] at h

theorem setBr_cons_eq (b : String) (v v0 : Nat) (rest : List (String × Nat)) :
    setBr ((b, v0) :: rest) b v = (b, v) :: setBr rest b v := by
  simp [setBr]

theorem setBr_cons_ne {k0 b : String} (hk : k0 ≠ b) (v v0 : Nat)
    (rest : List (String × Nat)) :
    setBr ((k0, v0) :: rest) b v = (k0, v0) :: setBr rest b v := by
  simp [setBr, hk]

theorem lookupBr_setBr_self {brs : List (String × Nat)} {b : String}
    {v w : Nat} (h : lookupBr brs b = some w) :
    lookupBr (setBr brs b v) b = some v := by
  induction brs with
  | nil => simp [lookupBr, lookupA] at h
  | cons kv rest ih =>
    obtain ⟨k0, v0⟩ := kv
    by_cases hk : k0 = b
    · subst hk
      rw [setBr_cons_eq]
      simp [lookupBr, lookupA]
    · rw [setBr_cons_ne hk]
      have h' : lookupBr rest b = some w := by
        simpa [lookupBr, lookupA, hk] using h
      simp only [lookupBr, lookupA, if_neg hk]
      exact ih h'

theorem lookupBr_setBr_ne {brs : List (String × Nat)} {b b' : String}
    {v : Nat} (h : b' ≠ b) :
    lookupBr (setBr brs b v) b' = lookupBr brs b' := by
  induction brs with
  | nil => simp [lookupBr, lookupA, setBr]
  | cons kv rest ih =>
    obtain ⟨k0, v0⟩ := kv
    by_cases hk : k0 = b
    · subst hk
      rw [setBr_cons_eq]
      simp only [lookupBr, lookupA, if_neg (Ne.symm h)]
      exact ih
    · rw [setBr_cons_ne hk]
      by_cases hk2 : k0 = b'
      · simp [lookupBr, lookupA, hk2]
      · simp only [lookupBr, lookupA, if_neg hk2]
        exact ih

/-- C9: identity resolution recognizes only the literal key
default_identity: get_identity returns an identity exactly for that key, so
get_remote_identity returns the configured default identity for every remote
alias, whatever identity string its binding stores — including the
anonymous_identity key that the add-remote command stores by default — and
no remote can be bound to an identity distinct from the default. -/
theorem identity_resolution_default_only :
    (∀ (cfg : Config) (n : String),
      (Config.get_identity cfg n).isSome = true ↔ n = "default_identity") ∧
    (∀ (cfg : Config) (r : String),
      Config.get_remote_identity cfg r =
        ⟨cfg.default_identity.name, cfg.default_identity.email⟩) ∧
    (∀ (cfg : Config) (a rn : String),
      lookupA (Config.addRemote cfg a rn none).remotes a =
        some ⟨rn, "anonymous_identity"⟩ ∧
      Config.get_remote_identity (Config.addRemote cfg a rn none) a =
        ⟨cfg.default_identity.name, cfg.default_identity.email⟩) := by
  have hne : ("anonymous_identity" : String) ≠ "default_identity" := by decide
  refine ⟨?_, ?_, ?_⟩
  · intro cfg n
    constructor
    · intro h
      by_cases hn : n = "default_identity"
      · exact hn
      · simp [Config.get_identity, hn] at h
    · intro h
      simp [Config.get_identity, h]
  · intro cfg r
    unfold Config.get_remote_identity
    cases h : lookupA cfg.remotes r with
    | none => simp
    | some rc =>
      by_cases hi : rc.identity = "default_identity" <;>
        simp [Config.get_identity, hi]
  · intro cfg a rn
    refine ⟨by simp [Config.addRemote, lookupA_cons_self, addRemoteDefaultKey], ?_⟩
    simp [Config.get_remote_identity, Config.addRemote, lookupA_cons_self,
      Config.get_identity, addRemoteDefaultKey, hne]

theorem collectE_none_cons {s : RepoState} {tip : Nat} {c : CommitData}
    (h1 : headTip s = some tip) (h2 : lookupC s.commits tip = some c) :
    ∃ rest, collectE s none = Except.ok (tip :: rest) := by
  unfold collectE
  rw [h1]
  simp only [h2, Option.isSome_some, if_pos]
  obtain ⟨n, hn⟩ : ∃ n, s.commits.length = n + 1 := by
    cases hcs : s.commits with
    | nil => exact absurd hcs (lookupA_some_ne_nil h2)
    | cons a l => exact ⟨l.length, by simp [hcs]⟩
  rw [hn]
  simp only [walkAux, pickMax, h2]
  exact ⟨_, rfl⟩

theorem squash_all_spec (ident : Identity) (msg b : String) (s : RepoState)
    (tip v : Nat) (c : CommitData) (h1 : headTip s = some tip)
    (h2 : lookupC s.commits tip = some c) (h3 : s.nextOid ∉ s.failOids)
    (h4 : lookupBr s.branches b = some v) :
    squash_all_commits ident msg b s =
      (Except.ok (),
        { s with
          commits :=
            (s.nextOid, ⟨[], c.tree, msg, ident, ident, s.now⟩) :: s.commits
          nextOid := s.nextOid + 1
          branches := setBr s.branches b s.nextOid
          reflog := "Squashed all commits" :: s.reflog }) := by
  obtain ⟨rest, hc⟩ := collectE_none_cons h1 h2
  unfold squash_all_commits
  rw [hc]
  simp only [List.reverse_eq_nil_iff, List.cons_ne_nil, if_neg,
    not_false_iff]
  rw [h1]
  simp only [h2, createCommit, if_neg h3, setTarget]
  simp only [h4]

theorem lookupC_cons_isSome {cs : List (Nat × CommitData)} {k t : Nat}
    (w : CommitData) (h : (lookupC cs t).isSome = true) :
    (lookupC ((k, w) :: cs) t).isSome = true := by
  by_cases hk : k = t
  · simp [lookupC, lookupA, hk]
  · simp only [lookupC, lookupA, if_neg hk]
    exact h

theorem create_backup_spec {s : RepoState} {tip : Nat} (name : String)
    (hb : headTip s = some tip) (hc2 : (lookupC s.commits tip).isSome = true)
    (hfree : lookupBr s.branches name = none) :
    create_backup_branch s name =
      (Except.ok (),
        { s with
          branches := (name, tip) :: s.branches
          reflog := ("branch: Created " ++ name) :: s.reflog }) := by
  unfold create_backup_branch
  rw [hb]
  simp only [hc2, if_pos]
  unfold createBranchAt
  rw [hfree]
  simp

/-- C8: invoking any of squash, push, clean with dryRun = true leaves the
entire repository state (current branch, all branch targets, the reflog, the
object store) identical to its pre-invocation value: the dry-run paths only
perform read-only computation. -/
theorem dry_run_purity (ident : Identity) (msg : Option String)
    (nc uc force : Bool) (remote : String) (brArg : Option String)
    (s : RepoState) :
    (squash ident msg nc true uc s).2 = s ∧
    (push ident remote brArg force true s).2 = s ∧
    (clean ident nc true uc s).2 = s := by
  refine ⟨?_, ?_, ?_⟩
  · unfold squash
    cases h : current_branchE s with
    | error e => rfl
    | ok b => by_cases hd : has_uncommitted_changes s <;> simp [hd]
  · unfold push
    cases h : current_branchE s with
    | error e => rfl
    | ok b =>
      by_cases hd : has_uncommitted_changes s
      · simp [hd]
      · simp only [hd, Bool.false_eq_true, if_false]
        cases hc : count_commits_to_anonymize s
            (get_remote_tracking_branch s remote (brArg.getD b)) with
        | error e => simp
        | ok n => by_cases hn : n = 0 <;> simp [hn]
  · unfold clean
    simp only [if_true]
    cases h : current_branchE s with
    | error e => rfl
    | ok b => rfl

/-- C1 counterexample: on a repository with a dirty working tree, clean with
dryRun = false does not fail with a precondition error; it succeeds and
mutates the repository (the branch references change), because
GitAnon::clean never calls has_uncommitted_changes. -/
theorem clean_ignores_dirty_tree_cx :
    sDirty.dirty = true ∧
    (clean exIdent true false true sDirty).1 = Except.ok () ∧
    (clean exIdent true false true sDirty).2.branches ≠ sDirty.branches := by
  refine ⟨rfl, rfl, ?_⟩
  decide

/-- C1 amended: on a dirty working tree, squash and push (dryRun = false)
fail with the uncommitted-changes precondition error and leave the state
untouched; clean performs no such check (see the counterexample). -/
theorem dirty_tree_precondition (ident : Identity) (msg : Option String)
    (nc uc force : Bool) (remote : String) (brArg : Option String)
    (s : RepoState) (t : Nat) (hd : s.dirty = true)
    (hb : lookupBr s.branches s.headBranch = some t) :
    squash ident msg nc false uc s =
      (Except.error
        "Uncommitted changes detected. Please commit or stash them first.",
        s) ∧
    push ident remote brArg force false s =
      (Except.error
        "Uncommitted changes detected. Please commit or stash them first.",
        s) := by
  have hcb : current_branchE s = Except.ok s.headBranch := by
    unfold current_branchE
    rw [hb]
  constructor
  · unfold squash
    rw [hcb]
    simp [has_uncommitted_changes, hd]
  · unfold push
    rw [hcb]
    simp [has_uncommitted_changes, hd]

/-- C2 counterexample: push with dryRun = false on a repository with commits
to rewrite succeeds, moves the branch pointer, and creates no branch
reference at all — in particular no backup branch — refuting the claim that
every destructive operation creates a backup branch. -/
theorem push_creates_no_backup_cx :
    (push exIdent "origin" none false false sOne).1 = Except.ok () ∧
    (push exIdent "origin" none false false sOne).2.branches.map Prod.fst =
      sOne.branches.map Prod.fst ∧
    lookupBr (push exIdent "origin" none false false sOne).2.branches
        "main" ≠ lookupBr sOne.branches "main" := by
  refine ⟨rfl, rfl, ?_⟩
  decide

/-- C3 counterexample: squash_all_commits itself moves the branch pointer:
on a concrete repository the call returns with the targeted branch pointing
at the newly created commit, not at its pre-invocation commit. -/
theorem squash_all_moves_branch_cx :
    (squash_all_commits exIdent "Initial commit" "main" sOne).1 =
      Except.ok () ∧
    lookupBr (squash_all_commits exIdent "Initial commit" "main"
        sOne).2.branches "main" ≠ lookupBr sOne.branches "main" := by
  refine ⟨rfl, ?_⟩
  decide

/-- C3 amended: squash_all_commits does move the branch pointer itself: on
success the targeted branch points at the newly created zero-parent commit
carrying the tip tree and the given message; the orchestrator performs no
separate repointing afterwards. -/
theorem squash_all_repoints_branch (ident : Identity) (msg b : String)
    (s : RepoState) (tip v : Nat) (c : CommitData)
    (h1 : headTip s = some tip) (h2 : lookupC s.commits tip = some c)
    (h3 : s.nextOid ∉ s.failOids) (h4 : lookupBr s.branches b = some v) :
    (squash_all_commits ident msg b s).1 = Except.ok () ∧
    lookupBr (squash_all_commits ident msg b s).2.branches b =
      some s.nextOid ∧
    lookupC (squash_all_commits ident msg b s).2.commits s.nextOid =
      some ⟨[], c.tree, msg, ident, ident, s.now⟩ := by
  rw [squash_all_spec ident msg b s tip v c h1 h2 h3 h4]
  refine ⟨rfl, ?_, ?_⟩
  · exact lookupBr_setBr_self h4
  · exact lookupA_cons_self _ _ _

/-- C2 amended: squash and clean create their timestamped backup branch
before the rewrite, and after the operation the pre-rewrite tip commit is
the target of that backup branch and remains reachable from it; push
creates no backup branch at all (see the counterexample). -/
theorem backup_branch_squash_clean (ident : Identity) (msg : Option String)
    (uc : Bool) (s : RepoState) (tip : Nat) (c : CommitData)
    (hclean : s.dirty = false)
    (hb : lookupBr s.branches s.headBranch = some tip)
    (hc : lookupC s.commits tip = some c)
    (hfree1 : lookupBr s.branches
      ("backup-" ++ s.headBranch ++ "-" ++ toString s.now) = none)
    (hfree2 : lookupBr s.branches
      ("pre-clean-backup-" ++ toString s.now) = none)
    (hok : s.nextOid ∉ s.failOids) :
    ((squash ident msg true false uc s).1 = Except.ok () ∧
      lookupBr (squash ident msg true false uc s).2.branches
        ("backup-" ++ s.headBranch ++ "-" ++ toString s.now) = some tip ∧
      ReachU (squash ident msg true false uc s).2.commits [] tip tip) ∧
    ((clean ident true false uc s).1 = Except.ok () ∧
      lookupBr (clean ident true false uc s).2.branches
        ("pre-clean-backup-" ++ toString s.now) = some tip ∧
      ReachU (clean ident true false uc s).2.commits [] tip tip) := by
  have hcb : current_branchE s = Except.ok s.headBranch := by
    unfold current_branchE
    rw [hb]
  have hhb : headTip s = some tip := hb
  have hsome : (lookupC s.commits tip).isSome = true := by
    rw [hc]
    rfl
  constructor
  · -- squash path
    have hne : ("backup-" ++ s.headBranch ++ "-" ++ toString s.now) ≠
        s.headBranch := by
      intro he
      rw [he, hb] at hfree1
      exact Option.noConfusion hfree1
    have h1' : lookupBr
        (("backup-" ++ s.headBranch ++ "-" ++ toString s.now, tip) ::
          s.branches) s.headBranch = some tip := by
      simp only [lookupBr, lookupA, if_neg hne]
      exact hb
    unfold squash
    rw [hcb]
    simp only [has_uncommitted_changes, hclean, Bool.false_eq_true,
      if_false, Bool.not_true, Bool.false_and]
    simp only [create_backup_spec _ hhb hsome hfree1,
      squash_all_spec ident (msg.getD "Initial commit") s.headBranch
        { s with
          branches :=
            ("backup-" ++ s.headBranch ++ "-" ++ toString s.now, tip) ::
              s.branches
          reflog :=
            ("branch: Created " ++
              ("backup-" ++ s.headBranch ++ "-" ++ toString s.now)) ::
              s.reflog }
        tip tip c h1' hc hok h1']
    refine ⟨trivial, ?_, ?_⟩
    · rw [lookupBr_setBr_ne hne]
      exact lookupA_cons_self _ _ _
    · exact ReachU.refl tip (by simp) (lookupC_cons_isSome _ hsome)
  · -- clean path
    have hne : ("pre-clean-backup-" ++ toString s.now) ≠ s.headBranch := by
      intro he
      rw [he, hb] at hfree2
      exact Option.noConfusion hfree2
    have h1' : lookupBr
        (("pre-clean-backup-" ++ toString s.now, tip) :: s.branches)
          s.headBranch = some tip := by
      simp only [lookupBr, lookupA, if_neg hne]
      exact hb
    unfold clean
    simp only [Bool.false_eq_true, if_false, Bool.not_true, Bool.false_and]
    rw [hcb]
    simp only [create_backup_spec _ hhb hsome hfree2,
      squash_all_spec ident "Initial commit" s.headBranch
        { s with
          branches :=
            ("pre-clean-backup-" ++ toString s.now, tip) :: s.branches
          reflog :=
            ("branch: Created " ++ ("pre-clean-backup-" ++ toString s.now)) ::
              s.reflog }
        tip tip c h1' hc hok h1', cleanupHistory]
    refine ⟨trivial, ?_, ?_⟩
    · rw [lookupBr_setBr_ne hne]
      exact lookupA_cons_self _ _ _
    · exact ReachU.refl tip (by simp) (lookupC_cons_isSome _ hsome)

/-- Witness for the amended C1 theorem at a concrete dirty repository. -/
theorem dirty_tree_precondition_witness :
    squash exIdent none true false true sDirty =
      (Except.error
        "Uncommitted changes detected. Please commit or stash them first.",
        sDirty) ∧
    push exIdent "origin" none false false sDirty =
      (Except.error
        "Uncommitted changes detected. Please commit or stash them first.",
        sDirty) :=
  dirty_tree_precondition exIdent none true true false "origin" none sDirty 0
    (by decide) (by decide)

/-- Witness for the amended C2 theorem at a concrete one-commit repository. -/
theorem backup_branch_squash_clean_witness :
    ((squash exIdent none true false true sOne).1 = Except.ok () ∧
      lookupBr (squash exIdent none true false true sOne).2.branches
        ("backup-" ++ sOne.headBranch ++ "-" ++ toString sOne.now) =
        some 0 ∧
      ReachU (squash exIdent none true false true sOne).2.commits [] 0 0) ∧
    ((clean exIdent true false true sOne).1 = Except.ok () ∧
      lookupBr (clean exIdent true false true sOne).2.branches
        ("pre-clean-backup-" ++ toString sOne.now) = some 0 ∧
      ReachU (clean exIdent true false true sOne).2.commits [] 0 0) :=
  backup_branch_squash_clean exIdent none true sOne 0
    ⟨[], 100, "m", exIdent, exIdent, 1⟩ (by decide) (by decide) (by decide)
    (by decide) (by decide) (by decide)

/-- Witness for the amended C3 theorem at a concrete one-commit repository. -/
theorem squash_all_repoints_branch_witness :
    (squash_all_commits exIdent "Init" "main" sOne).1 = Except.ok () ∧
    lookupBr (squash_all_commits exIdent "Init" "main" sOne).2.branches
      "main" = some sOne.nextOid ∧
    lookupC (squash_all_commits exIdent "Init" "main" sOne).2.commits
      sOne.nextOid = some ⟨[], 100, "Init", exIdent, exIdent, sOne.now⟩ :=
  squash_all_repoints_branch exIdent "Init" "main" sOne 0 0
    ⟨[], 100, "m", exIdent, exIdent, 1⟩ (by decide) (by decide) (by decide)
    (by decide)

theorem createCommit_frame {s : RepoState} {a b : Identity} {msg : String}
    {tr : Nat} {ps : List Nat} {r : Except String Nat} {s1 : RepoState}
    (h : createCommit s a b msg tr ps = (r, s1)) :
    s1.branches = s.branches ∧ s1.reflog = s.reflog ∧
    s1.failOids = s.failOids ∧ s1.now = s.now ∧ s1.remotes = s.remotes ∧
    s1.headBranch = s.headBranch ∧ s.nextOid ≤ s1.nextOid := by
  unfold createCommit at h
  by_cases hf : s.nextOid ∈ s.failOids
  · rw [if_pos hf] at h
    injection h with h1 h2
    subst h2
    exact ⟨rfl, rfl, rfl, rfl, rfl, rfl, Nat.le_refl _⟩
  · rw [if_neg hf] at h
    injection h with h1 h2
    subst h2
    exact ⟨rfl, rfl, rfl, rfl, rfl, rfl, Nat.le_succ _⟩

theorem anonLoop_frame (ident : Identity) (l : List Nat) :
    ∀ (m : List (Nat × Nat)) (s : RepoState),
    (anonLoop ident l m s).2.branches = s.branches ∧
    (anonLoop ident l m s).2.reflog = s.reflog ∧
    (anonLoop ident l m s).2.failOids = s.failOids ∧
    (anonLoop ident l m s).2.now = s.now ∧
    (anonLoop ident l m s).2.remotes = s.remotes ∧
    (anonLoop ident l m s).2.headBranch = s.headBranch ∧
    s.nextOid ≤ (anonLoop ident l m s).2.nextOid := by
  induction l with
  | nil =>
    intro m s
    exact ⟨rfl, rfl, rfl, rfl, rfl, rfl, Nat.le_refl _⟩
  | cons oid rest ih =>
    intro m s
    unfold anonLoop
    cases hl : lookupC s.commits oid with
    | none => exact ⟨rfl, rfl, rfl, rfl, rfl, rfl, Nat.le_refl _⟩
    | some c =>
      simp only
      cases hc2 : createCommit s ident ident c.message c.tree
          (c.parents.filterMap fun pid => (lookupA m pid).bind fun no =>
            if (lookupC s.commits no).isSome = true then some no
            else none) with
      | mk r s1 =>
        obtain ⟨f1, f2, f3, f4, f5, f6, f7⟩ := createCommit_frame hc2
        cases r with
        | error e => exact ⟨f1, f2, f3, f4, f5, f6, f7⟩
        | ok no =>
          obtain ⟨g1, g2, g3, g4, g5, g6, g7⟩ := ih ((oid, no) :: m) s1
          exact ⟨g1.trans f1, g2.trans f2, g3.trans f3, g4.trans f4,
            g5.trans f5, g6.trans f6, Nat.le_trans f7 g7⟩

theorem anonLoop_cons (ident : Identity) (oid : Nat) (rest : List Nat)
    (m : List (Nat × Nat)) (s : RepoState) :
    anonLoop ident (oid :: rest) m s =
      match lookupC s.commits oid with
      | none => (Except.error "commit not found", s)
      | some c =>
        match createCommit s ident ident c.message c.tree
            (c.parents.filterMap fun pid => (lookupA m pid).bind fun no =>
              if (lookupC s.commits no).isSome = true then some no
              else none) with
        | (Except.error e, s1) => (Except.error e, s1)
        | (Except.ok no, s1) => anonLoop ident rest ((oid, no) :: m) s1 :=
  rfl

theorem anonLoop_append_ok {ident : Identity} {l1 l2 : List Nat} :
    ∀ {m : List (Nat × Nat)} {s : RepoState} {m1 : List (Nat × Nat)}
      {s1 : RepoState}, anonLoop ident l1 m s = (Except.ok m1, s1) →
      anonLoop ident (l1 ++ l2) m s = anonLoop ident l2 m1 s1 := by
  induction l1 with
  | nil =>
    intro m s m1 s1 h
    simp only [anonLoop] at h
    injection h with ha hb
    injection ha with hm
    subst hm
    subst hb
    rfl
  | cons oid rest ih =>
    intro m s m1 s1 h
    rw [anonLoop_cons] at h
    rw [List.cons_append, anonLoop_cons]
    cases hl : lookupC s.commits oid with
    | none =>
      simp only [hl] at h
      simp at h
    | some c =>
      simp only [hl] at h ⊢
      cases hc2 : createCommit s ident ident c.message c.tree
          (c.parents.filterMap fun pid => (lookupA m pid).bind fun no =>
            if (lookupC s.commits no).isSome = true then some no
            else none) with
      | mk r sc =>
        simp only [hc2] at h ⊢
        cases r with
        | error e => simp at h
        | ok no => exact ih h

theorem anonLoop_append_err {ident : Identity} {l1 l2 : List Nat} :
    ∀ {m : List (Nat × Nat)} {s : RepoState} {e : String} {s1 : RepoState},
      anonLoop ident l1 m s = (Except.error e, s1) →
      anonLoop ident (l1 ++ l2) m s = (Except.error e, s1) := by
  induction l1 with
  | nil =>
    intro m s e s1 h
    simp [anonLoop] at h
  | cons oid rest ih =>
    intro m s e s1 h
    rw [anonLoop_cons] at h
    rw [List.cons_append, anonLoop_cons]
    cases hl : lookupC s.commits oid with
    | none =>
      simp only [hl] at h ⊢
      exact h
    | some c =>
      simp only [hl] at h ⊢
      cases hc2 : createCommit s ident ident c.message c.tree
          (c.parents.filterMap fun pid => (lookupA m pid).bind fun no =>
            if (lookupC s.commits no).isSome = true then some no
            else none) with
      | mk r sc =>
        simp only [hc2] at h ⊢
        cases r with
        | error e2 => exact h
        | ok no => exact ih h

theorem anonLoop_prefix_ok {ident : Identity} {l1 l2 : List Nat}
    {m : List (Nat × Nat)} {s : RepoState} {mf : List (Nat × Nat)}
    {sf : RepoState}
    (h : anonLoop ident (l1 ++ l2) m s = (Except.ok mf, sf)) :
    ∃ m1 s1, anonLoop ident l1 m s = (Except.ok m1, s1) := by
  cases hp : anonLoop ident l1 m s with
  | mk r s1 =>
    cases r with
    | error e =>
      rw [anonLoop_append_err hp] at h
      exact absurd h (by simp)
    | ok m1 => exact ⟨m1, s1, rfl⟩

theorem anonLoop_domain {ident : Identity} {l : List Nat} :
    ∀ {m : List (Nat × Nat)} {s : RepoState} {mf : List (Nat × Nat)}
      {sf : RepoState}, anonLoop ident l m s = (Except.ok mf, sf) →
      ∀ p, (lookupA mf p).isSome = true ↔
        p ∈ l ∨ (lookupA m p).isSome = true := by
  induction l with
  | nil =>
    intro m s mf sf h p
    simp only [anonLoop] at h
    injection h with ha hb
    injection ha with hm
    subst hm
    simp
  | cons oid rest ih =>
    intro m s mf sf h p
    rw [anonLoop_cons] at h
    cases hl : lookupC s.commits oid with
    | none =>
      simp only [hl] at h
      simp at h
    | some c =>
      simp only [hl] at h
      cases hc2 : createCommit s ident ident c.message c.tree
          (c.parents.filterMap fun pid => (lookupA m pid).bind fun no =>
            if (lookupC s.commits no).isSome = true then some no
            else none) with
      | mk r sc =>
        simp only [hc2] at h
        cases r with
        | error e => simp at h
        | ok no =>
          have hih := ih h p
          by_cases hp : oid = p
          · subst hp
            simp only [lookupA, if_pos rfl] at hih
            simp [hih]
          · simp only [lookupA, if_neg hp] at hih
            rw [hih]
            constructor
            · intro hc
              rcases hc with hc | hc
              · exact Or.inl (List.mem_cons_of_mem _ hc)
              · exact Or.inr hc
            · intro hc
              rcases hc with hc | hc
              · rcases List.mem_cons.mp hc with hc | hc
                · exact absurd hc.symm hp
                · exact Or.inl hc
              · exact Or.inr hc

theorem anonLoop_binding_keep {ident : Identity} {l : List Nat} :
    ∀ {m : List (Nat × Nat)} {s : RepoState} {mf : List (Nat × Nat)}
      {sf : RepoState}, anonLoop ident l m s = (Except.ok mf, sf) →
      ∀ p v, p ∉ l → lookupA m p = some v → lookupA mf p = some v := by
  induction l with
  | nil =>
    intro m s mf sf h p v _ hm
    simp only [anonLoop] at h
    injection h with ha hb
    injection ha with hm2
    subst hm2
    exact hm
  | cons oid rest ih =>
    intro m s mf sf h p v hp hm
    rw [anonLoop_cons] at h
    cases hl : lookupC s.commits oid with
    | none =>
      simp only [hl] at h
      simp at h
    | some c =>
      simp only [hl] at h
      cases hc2 : createCommit s ident ident c.message c.tree
          (c.parents.filterMap fun pid => (lookupA m pid).bind fun no =>
            if (lookupC s.commits no).isSome = true then some no
            else none) with
      | mk r sc =>
        simp only [hc2] at h
        cases r with
        | error e => simp at h
        | ok no =>
          have hne : oid ≠ p := fun he => hp (he ▸ List.mem_cons_self _ _)
          refine ih h p v (fun hc => hp (List.mem_cons_of_mem _ hc)) ?_
          simp only [lookupA, if_neg hne]
          exact hm

theorem anonLoop_lookup_lt {ident : Identity} {l : List Nat} :
    ∀ {m : List (Nat × Nat)} {s : RepoState} {k : Nat} {c : CommitData},
      k < s.nextOid → lookupC s.commits k = some c →
      lookupC (anonLoop ident l m s).2.commits k = some c := by
  induction l with
  | nil =>
    intro m s k c _ hc
    exact hc
  | cons oid rest ih =>
    intro m s k c hk hc
    rw [anonLoop_cons]
    cases hl : lookupC s.commits oid with
    | none => exact hc
    | some cd =>
      simp only
      unfold createCommit
      by_cases hf : s.nextOid ∈ s.failOids
      · simp only [if_pos hf]
        exact hc
      · simp only [if_neg hf]
        refine ih (Nat.lt_trans hk (Nat.lt_succ_self _)) ?_
        have hne : s.nextOid ≠ k := Nat.ne_of_gt hk
        simp only [lookupC, lookupA, if_neg hne]
        exact hc

theorem createCommit_ok {s : RepoState} {a b : Identity} {msg : String}
    {tr : Nat} {ps : List Nat} (hf : s.nextOid ∉ s.failOids) :
    createCommit s a b msg tr ps =
      (Except.ok s.nextOid,
        { s with
          commits := (s.nextOid, ⟨ps, tr, msg, a, b, s.now⟩) :: s.commits
          nextOid := s.nextOid + 1 }) := by
  unfold createCommit
  rw [if_neg hf]

theorem anonLoop_ok {ident : Identity} {l : List Nat} :
    ∀ {m : List (Nat × Nat)} {s : RepoState}, s.failOids = [] →
      (∀ oid ∈ l, (lookupC s.commits oid).isSome = true) →
      ∃ mf sf, anonLoop ident l m s = (Except.ok mf, sf) := by
  induction l with
  | nil =>
    intro m s _ _
    exact ⟨m, s, rfl⟩
  | cons oid rest ih =>
    intro m s hfail hall
    rw [anonLoop_cons]
    obtain ⟨c, hc⟩ : ∃ c, lookupC s.commits oid = some c := by
      have hh := hall oid (List.mem_cons_self _ _)
      cases hx : lookupC s.commits oid with
      | none =>
        rw [hx] at hh
        simp at hh
      | some c => exact ⟨c, rfl⟩
    simp only [hc]
    have hnf : s.nextOid ∉ s.failOids := by
      rw [hfail]
      simp
    cases hc2 : createCommit s ident ident c.message c.tree
        (c.parents.filterMap fun pid => (lookupA m pid).bind fun no =>
          if (lookupC s.commits no).isSome = true then some no
          else none) with
    | mk r s1 =>
      rw [createCommit_ok hnf] at hc2
      injection hc2 with hr hs
      subst hs
      subst hr
      refine ih ?_ ?_
      · exact hfail
      · intro o ho
        exact lookupC_cons_isSome _ (hall o (List.mem_cons_of_mem _ ho))

theorem anonLoop_mapVals {ident : Identity} {l : List Nat} :
    ∀ {m : List (Nat × Nat)} {s : RepoState} {mf : List (Nat × Nat)}
      {sf : RepoState}, mapVals m s.commits →
      anonLoop ident l m s = (Except.ok mf, sf) → mapVals mf sf.commits := by
  induction l with
  | nil =>
    intro m s mf sf hmv h
    simp only [anonLoop] at h
    injection h with ha hb
    injection ha with hm
    subst hm
    subst hb
    exact hmv
  | cons oid rest ih =>
    intro m s mf sf hmv h
    rw [anonLoop_cons] at h
    cases hl : lookupC s.commits oid with
    | none =>
      simp only [hl] at h
      simp at h
    | some c =>
      simp only [hl] at h
      cases hc2 : createCommit s ident ident c.message c.tree
          (c.parents.filterMap fun pid => (lookupA m pid).bind fun no =>
            if (lookupC s.commits no).isSome = true then some no
            else none) with
      | mk r s1 =>
        simp only [hc2] at h
        cases r with
        | error e => simp at h
        | ok no =>
          unfold createCommit at hc2
          by_cases hf : s.nextOid ∈ s.failOids
          · rw [if_pos hf] at hc2
            injection hc2 with hr hs
            exact absurd hr (by simp)
          · rw [if_neg hf] at hc2
            injection hc2 with hr hs
            injection hr with hno
            subst hno
            subst hs
            refine ih ?_ h
            intro p v hpv
            by_cases hp : oid = p
            · subst hp
              rw [lookupA, if_pos rfl] at hpv
              injection hpv with hv
              subst hv
              simp [lookupC, lookupA]
            · rw [lookupA, if_neg hp] at hpv
              exact lookupC_cons_isSome _ (hmv p v hpv)

theorem filterMap_guard_eq {m1 : List (Nat × Nat)}
    {cs : List (Nat × CommitData)} (hmv : mapVals m1 cs) (ps : List Nat) :
    ps.filterMap (fun pid => (lookupA m1 pid).bind fun no =>
      if (lookupC cs no).isSome = true then some no else none) =
    ps.filterMap (fun pid => lookupA m1 pid) := by
  induction ps with
  | nil => rfl
  | cons p ps ih =>
    simp only [List.filterMap_cons]
    cases hx : lookupA m1 p with
    | none => simpa using ih
    | some v =>
      have hv := hmv p v hx
      simp [hv, ih]

theorem anonLoop_elem_spec {ident : Identity} {l1 l2 : List Nat} {oid : Nat}
    {s : RepoState} {c0 : CommitData} {mf : List (Nat × Nat)}
    {sf : RepoState}
    (hwf : wfFresh s) (hc0 : lookupC s.commits oid = some c0)
    (hrun : anonLoop ident (l1 ++ oid :: l2) [] s = (Except.ok mf, sf))
    (hnotl2 : oid ∉ l2) :
    ∃ no m1 s1, anonLoop ident l1 [] s = (Except.ok m1, s1) ∧
      lookupA mf oid = some no ∧
      lookupC sf.commits no =
        some ⟨c0.parents.filterMap (fun p => lookupA m1 p), c0.tree,
          c0.message, ident, ident, s.now⟩ := by
  obtain ⟨m1, s1, hpre⟩ := anonLoop_prefix_ok hrun
  have hsuf : anonLoop ident (oid :: l2) m1 s1 = (Except.ok mf, sf) :=
    (anonLoop_append_ok hpre).symm.trans hrun
  rw [anonLoop_cons] at hsuf
  have hfr := anonLoop_frame ident l1 [] s
  rw [hpre] at hfr
  have hnow : s1.now = s.now := hfr.2.2.2.1
  have hlt : oid < s.nextOid := hwf _ (lookupA_mem hc0)
  have hl : lookupC s1.commits oid = some c0 := by
    have hkeep := @anonLoop_lookup_lt ident l1 [] s oid c0 hlt hc0
    rw [hpre] at hkeep
    exact hkeep
  rw [hl] at hsuf
  simp only at hsuf
  cases hc2 : createCommit s1 ident ident c0.message c0.tree
      (c0.parents.filterMap fun pid => (lookupA m1 pid).bind fun no =>
        if (lookupC s1.commits no).isSome = true then some no
        else none) with
  | mk r s2 =>
    rw [hc2] at hsuf
    cases r with
    | error e => exact absurd hsuf (by simp)
    | ok no =>
      unfold createCommit at hc2
      by_cases hf : s1.nextOid ∈ s1.failOids
      · rw [if_pos hf] at hc2
        injection hc2 with hr hs
        exact absurd hr (by simp)
      · rw [if_neg hf] at hc2
        injection hc2 with hr hs
        injection hr with hno
        subst hno
        subst hs
        have hmv : mapVals m1 s1.commits := by
          have hz : mapVals ([] : List (Nat × Nat)) s.commits := by
            intro p v hpv
            simp [lookupA] at hpv
          exact @anonLoop_mapVals ident l1 [] s m1 s1 hz hpre
        have hs2 : anonLoop ident l2 ((oid, s1.nextOid) :: m1)
            { s1 with
              commits := (s1.nextOid,
                ⟨c0.parents.filterMap (fun pid => (lookupA m1 pid).bind
                    fun no => if (lookupC s1.commits no).isSome = true
                    then some no else none),
                  c0.tree, c0.message, ident, ident, s1.now⟩) :: s1.commits
              nextOid := s1.nextOid + 1 } = (Except.ok mf, sf) := hsuf
        refine ⟨s1.nextOid, m1, s1, hpre, ?_, ?_⟩
        · exact anonLoop_binding_keep hs2 oid s1.nextOid hnotl2
            (by simp [lookupA])
        · have hlast := @anonLoop_lookup_lt ident l2
            ((oid, s1.nextOid) :: m1)
            { s1 with
              commits := (s1.nextOid,
                ⟨c0.parents.filterMap (fun pid => (lookupA m1 pid).bind
                    fun no => if (lookupC s1.commits no).isSome = true
                    then some no else none),
                  c0.tree, c0.message, ident, ident, s1.now⟩) :: s1.commits
              nextOid := s1.nextOid + 1 }
            s1.nextOid
            ⟨c0.parents.filterMap (fun pid => (lookupA m1 pid).bind
                fun no => if (lookupC s1.commits no).isSome = true
                then some no else none),
              c0.tree, c0.message, ident, ident, s1.now⟩
            (Nat.lt_succ_self _) (by simp [lookupC, lookupA])
          rw [hs2] at hlast
          have hlast2 : lookupC sf.commits s1.nextOid =
              some ⟨c0.parents.filterMap (fun pid => (lookupA m1 pid).bind
                  fun no => if (lookupC s1.commits no).isSome = true
                  then some no else none),
                c0.tree, c0.message, ident, ident, s1.now⟩ := hlast
          rw [hlast2, filterMap_guard_eq hmv, hnow]

theorem wfFresh_of_B {s : RepoState} (h : wfFreshB s = true) : wfFresh s := by
  intro kc hkc
  have hh := List.all_eq_true.mp h kc hkc
  exact of_decide_eq_true hh

theorem anonymize_collect_err {ident : Identity} {b : String}
    {since : Option Nat} {s : RepoState} {e : String}
    (h : collectE s since = Except.error e) :
    anonymize_commits ident b since s = (Except.error e, s) := by
  unfold anonymize_commits
  simp only [h]

theorem anonymize_nil {ident : Identity} {b : String} {since : Option Nat}
    {s : RepoState} (h : collectE s since = Except.ok []) :
    anonymize_commits ident b since s = (Except.ok 0, s) := by
  unfold anonymize_commits
  simp only [h]

theorem anonymize_loop_err {ident : Identity} {b : String}
    {since : Option Nat} {s : RepoState} {first : Nat} {rest : List Nat}
    {e : String} {s1 : RepoState}
    (hcol : collectE s since = Except.ok (first :: rest))
    (hloop : anonLoop ident (first :: rest).reverse [] s =
      (Except.error e, s1)) :
    anonymize_commits ident b since s = (Except.error e, s1) := by
  unfold anonymize_commits
  simp only [hcol, hloop]

theorem anonymize_ok_nohead {ident : Identity} {b : String}
    {since : Option Nat} {s : RepoState} {first : Nat} {rest : List Nat}
    {m : List (Nat × Nat)} {s1 : RepoState}
    (hcol : collectE s since = Except.ok (first :: rest))
    (hloop : anonLoop ident (first :: rest).reverse [] s =
      (Except.ok m, s1))
    (hm : lookupA m first = none) :
    anonymize_commits ident b since s =
      (Except.ok (first :: rest).length, s1) := by
  unfold anonymize_commits
  simp only [hcol, hloop, hm]

theorem anonymize_ok_nobranch {ident : Identity} {b : String}
    {since : Option Nat} {s : RepoState} {first : Nat} {rest : List Nat}
    {m : List (Nat × Nat)} {s1 : RepoState} {newTip : Nat}
    (hcol : collectE s since = Except.ok (first :: rest))
    (hloop : anonLoop ident (first :: rest).reverse [] s =
      (Except.ok m, s1))
    (hm : lookupA m first = some newTip)
    (hb2 : lookupBr s1.branches b = none) :
    anonymize_commits ident b since s =
      (Except.error "branch not found", s1) := by
  unfold anonymize_commits
  simp only [hcol, hloop, hm]
  unfold setTarget
  simp only [hb2]

theorem anonymize_ok_set {ident : Identity} {b : String}
    {since : Option Nat} {s : RepoState} {first : Nat} {rest : List Nat}
    {m : List (Nat × Nat)} {s1 : RepoState} {newTip w : Nat}
    (hcol : collectE s since = Except.ok (first :: rest))
    (hloop : anonLoop ident (first :: rest).reverse [] s =
      (Except.ok m, s1))
    (hm : lookupA m first = some newTip)
    (hb2 : lookupBr s1.branches b = some w) :
    anonymize_commits ident b since s =
      (Except.ok (first :: rest).length,
        { s1 with
          branches := setBr s1.branches b newTip
          reflog := "Anonymized commits" :: s1.reflog }) := by
  unfold anonymize_commits
  simp only [hcol, hloop, hm]
  unfold setTarget
  simp only [hb2]

/-- C4: when any commit lookup or commit-object creation fails during the
rewrite loop of anonymize_commits, the call aborts and every branch target
equals its pre-invocation value; on success the branch pointer is updated at
most once, after the full loop, to the rewritten counterpart of the newest
collected commit, and only when every collected commit has an entry in the
rewrite mapping. -/
theorem linear_remap_abort_safety (ident : Identity) (b : String)
    (since : Option Nat) (s : RepoState) :
    (∀ e s', anonymize_commits ident b since s = (Except.error e, s') →
      s'.branches = s.branches) ∧
    (∀ n s', anonymize_commits ident b since s = (Except.ok n, s') →
      s'.branches = s.branches ∨
      ∃ first rest m s1 newTip,
        collectE s since = Except.ok (first :: rest) ∧
        n = (first :: rest).length ∧
        anonLoop ident (first :: rest).reverse [] s = (Except.ok m, s1) ∧
        (∀ p, p ∈ first :: rest → (lookupA m p).isSome = true) ∧
        lookupA m first = some newTip ∧
        s'.branches = setBr s.branches b newTip) := by
  cases hcol : collectE s since with
  | error e =>
    constructor
    · intro e' s' h
      rw [anonymize_collect_err hcol] at h
      injection h with h1 h2
      subst h2
      rfl
    · intro n s' h
      rw [anonymize_collect_err hcol] at h
      injection h with h1 h2
      exact absurd h1 (by simp)
  | ok l =>
    cases l with
    | nil =>
      constructor
      · intro e' s' h
        rw [anonymize_nil hcol] at h
        injection h with h1 h2
        exact absurd h1 (by simp)
      · intro n s' h
        rw [anonymize_nil hcol] at h
        injection h with h1 h2
        subst h2
        exact Or.inl rfl
    | cons first rest =>
      cases hloop : anonLoop ident (first :: rest).reverse [] s with
      | mk r s1 =>
        have hfr := anonLoop_frame ident (first :: rest).reverse [] s
        rw [hloop] at hfr
        have hbr1 : s1.branches = s.branches := hfr.1
        cases r with
        | error e =>
          constructor
          · intro e' s' h
            rw [anonymize_loop_err hcol hloop] at h
            injection h with h1 h2
            subst h2
            exact hbr1
          · intro n s' h
            rw [anonymize_loop_err hcol hloop] at h
            injection h with h1 h2
            exact absurd h1 (by simp)
        | ok m =>
          cases hm : lookupA m first with
          | none =>
            constructor
            · intro e' s' h
              rw [anonymize_ok_nohead hcol hloop hm] at h
              injection h with h1 h2
              exact absurd h1 (by simp)
            · intro n s' h
              rw [anonymize_ok_nohead hcol hloop hm] at h
              injection h with h1 h2
              subst h2
              exact Or.inl hbr1
          | some newTip =>
            cases hb2 : lookupBr s1.branches b with
            | none =>
              constructor
              · intro e' s' h
                rw [anonymize_ok_nobranch hcol hloop hm hb2] at h
                injection h with h1 h2
                subst h2
                exact hbr1
              · intro n s' h
                rw [anonymize_ok_nobranch hcol hloop hm hb2] at h
                injection h with h1 h2
                exact absurd h1 (by simp)
            | some w =>
              constructor
              · intro e' s' h
                rw [anonymize_ok_set hcol hloop hm hb2] at h
                injection h with h1 h2
                exact absurd h1 (by simp)
              · intro n s' h
                rw [anonymize_ok_set hcol hloop hm hb2] at h
                injection h with h1 h2
                injection h1 with hn
                subst h2
                refine Or.inr ⟨first, rest, m, s1, newTip, rfl, hn.symm,
                  hloop, ?_, hm, ?_⟩
                · intro p hp
                  exact (anonLoop_domain hloop p).mpr
                    (Or.inl (List.mem_reverse.mpr hp))
                · rw [hbr1]

/-- Witness for the C4 theorem: on a concrete repository whose fault set
makes the first object creation fail, anonymize_commits aborts with the
object-creation error and the branch store is untouched. -/
theorem linear_remap_abort_safety_witness :
    (anonymize_commits exIdent "main" none sTwoFail).2.branches =
      sTwoFail.branches :=
  (linear_remap_abort_safety exIdent "main" none sTwoFail).1
    "object creation failed"
    (anonymize_commits exIdent "main" none sTwoFail).2 (by rfl)

/-- C6: every commit processed by the rewrite loop of anonymize_commits is
rewritten into a commit that reuses the original tree, carries the original
message verbatim, has the given identity as both author and committer, and
whose parent list is the new ids of exactly those original parents present
in the rewrite mapping at processing time; a parent without a mapping entry
is silently dropped. -/
theorem linear_remap_commit_shape (ident : Identity) (l1 l2 : List Nat)
    (oid : Nat) (s : RepoState) (c0 : CommitData) (mf : List (Nat × Nat))
    (sf : RepoState) (hwf : wfFreshB s = true)
    (hc0 : lookupC s.commits oid = some c0)
    (hrun : anonLoop ident (l1 ++ oid :: l2) [] s = (Except.ok mf, sf))
    (hnotl2 : oid ∉ l2) :
    ∃ no m1 s1, anonLoop ident l1 [] s = (Except.ok m1, s1) ∧
      lookupA mf oid = some no ∧
      lookupC sf.commits no =
        some ⟨c0.parents.filterMap (fun p => lookupA m1 p), c0.tree,
          c0.message, ident, ident, s.now⟩ :=
  anonLoop_elem_spec (wfFresh_of_B hwf) hc0 hrun hnotl2

/-- Witness for the C6 theorem: the second commit of a two-commit chain is
rewritten with its original tree and message, the anonymous identity, and
its parent mapped through the rewrite mapping. -/
theorem linear_remap_commit_shape_witness :
    ∃ no m1 s1, anonLoop exIdent [0] [] sTwo = (Except.ok m1, s1) ∧
      lookupA [(1, 3), (0, 2)] 1 = some no ∧
      lookupC (anonLoop exIdent ([0] ++ 1 :: []) [] sTwo).2.commits no =
        some ⟨[0].filterMap (fun p => lookupA m1 p), 101, "second",
          exIdent, exIdent, sTwo.now⟩ :=
  linear_remap_commit_shape exIdent [0] [] 1 sTwo
    ⟨[0], 101, "second", exIdent, exIdent, 2⟩ [(1, 3), (0, 2)]
    (anonLoop exIdent ([0] ++ 1 :: []) [] sTwo).2 (by decide) (by decide)
    (by rfl) (by decide)

theorem pickMax_mem {cs : List (Nat × CommitData)} :
    ∀ {l : List Nat} {x : Nat}, pickMax cs l = some x → x ∈ l := by
  intro l
  induction l with
  | nil =>
    intro x h
    simp [pickMax] at h
  | cons a rest ih =>
    intro x h
    rw [pickMax] at h
    cases hr : pickMax cs rest with
    | none =>
      simp only [hr] at h
      injection h with h1
      subst h1
      exact List.mem_cons_self _ _
    | some y =>
      simp only [hr] at h
      by_cases hk : keyTime cs a < keyTime cs y
      · rw [if_pos hk] at h
        injection h with h1
        subst h1
        exact List.mem_cons_of_mem _ (ih hr)
      · rw [if_neg hk] at h
        injection h with h1
        subst h1
        exact List.mem_cons_self _ _

theorem pickMax_isSome {cs : List (Nat × CommitData)} {a : Nat}
    {l : List Nat} : ∃ x, pickMax cs (a :: l) = some x := by
  rw [pickMax]
  cases hr : pickMax cs l with
  | none => exact ⟨a, rfl⟩
  | some y =>
    by_cases hk : keyTime cs a < keyTime cs y
    · exact ⟨y, if_pos hk⟩
    · exact ⟨a, if_neg hk⟩

theorem pickMax_ge {cs : List (Nat × CommitData)} :
    ∀ {l : List Nat} {x : Nat}, pickMax cs l = some x →
      ∀ y ∈ l, keyTime cs y ≤ keyTime cs x := by
  intro l
  induction l with
  | nil =>
    intro x h y hy
    simp at hy
  | cons a rest ih =>
    intro x h y hy
    rw [pickMax] at h
    cases hr : pickMax cs rest with
    | none =>
      simp only [hr] at h
      injection h with h1
      subst h1
      rcases List.mem_cons.mp hy with hy | hy
      · subst hy
        exact Nat.le_refl _
      · cases rest with
        | nil => simp at hy
        | cons b r2 => exact absurd hr (by
            obtain ⟨z, hz⟩ := @pickMax_isSome cs b r2
            rw [hz]
            simp)
    | some z =>
      simp only [hr] at h
      by_cases hk : keyTime cs a < keyTime cs z
      · rw [if_pos hk] at h
        injection h with h1
        subst h1
        rcases List.mem_cons.mp hy with hy | hy
        · subst hy
          exact Nat.le_of_lt hk
        · exact ih hr y hy
      · rw [if_neg hk] at h
        injection h with h1
        subst h1
        rcases List.mem_cons.mp hy with hy | hy
        · subst hy
          exact Nat.le_refl _
        · exact Nat.le_trans (ih hr y hy) (Nat.le_of_not_lt hk)

theorem walkAux_zero (cs : List (Nat × CommitData)) (hid : List Nat)
    (frontier visited : List Nat) : walkAux cs hid 0 frontier visited = [] :=
  rfl

theorem walkAux_empty (cs : List (Nat × CommitData)) (hid : List Nat)
    (fuel : Nat) (visited : List Nat) : walkAux cs hid fuel [] visited = [] := by
  cases fuel with
  | zero => rfl
  | succ n => rfl

theorem walkAux_succ {cs : List (Nat × CommitData)} {hid : List Nat}
    {fuel : Nat} {frontier visited : List Nat} {x : Nat} {c : CommitData}
    (hpick : pickMax cs frontier = some x) (hc : lookupC cs x = some c) :
    walkAux cs hid (fuel + 1) frontier visited =
      x :: walkAux cs hid fuel
        (frontier.erase x ++
          c.parents.filter (freshParent cs hid frontier visited))
        (x :: visited) := by
  rw [walkAux, hpick]
  simp only [hc]

theorem freshParent_iff {cs : List (Nat × CommitData)}
    {hid frontier visited : List Nat} {p : Nat} :
    freshParent cs hid frontier visited p = true ↔
      (lookupC cs p).isSome = true ∧ p ∉ visited ∧ p ∉ frontier ∧
        p ∉ hid := by
  simp [freshParent, Bool.and_eq_true, decide_eq_true_iff, and_assoc]

theorem ReachU_mono {cs : List (Nat × CommitData)} {bad bad2 : List Nat}
    (hsub : ∀ a, a ∈ bad2 → a ∈ bad) :
    ∀ {v u : Nat}, ReachU cs bad v u → ReachU cs bad2 v u := by
  intro v u h
  induction h with
  | refl a ha hp => exact ReachU.refl a (fun hc => ha (hsub a hc)) hp
  | step a c b t ha hla hb _ ih =>
    exact ReachU.step a c b t (fun hc => ha (hsub a hc)) hla hb ih

theorem ReachU_head {cs : List (Nat × CommitData)} {bad : List Nat}
    {v u : Nat} (h : ReachU cs bad v u) :
    v ∉ bad ∧ (lookupC cs v).isSome = true := by
  cases h with
  | refl a ha hp => exact ⟨ha, hp⟩
  | step a c b t ha hla hb hr => exact ⟨ha, by rw [hla]; rfl⟩

theorem ReachU_target {cs : List (Nat × CommitData)} {bad : List Nat}
    {v u : Nat} (h : ReachU cs bad v u) :
    u ∉ bad ∧ (lookupC cs u).isSome = true := by
  induction h with
  | refl a ha hp => exact ⟨ha, hp⟩
  | step a c b t ha hla hb _ ih => exact ih

theorem ReachU_time {cs : List (Nat × CommitData)} (hst : StrictT cs)
    {bad : List Nat} {v u : Nat} (h : ReachU cs bad v u) :
    ∀ {cv cu : CommitData}, lookupC cs v = some cv →
      lookupC cs u = some cu → cu.time ≤ cv.time := by
  induction h with
  | refl a ha hp =>
    intro cv cu h1 h2
    rw [h1] at h2
    injection h2 with h3
    rw [h3]
  | step a c b t ha hla hb hr ih =>
    intro cv cu h1 h2
    rw [hla] at h1
    injection h1 with h3
    subst h3
    obtain ⟨hb2, hbp⟩ := ReachU_head hr
    cases hx : lookupC cs b with
    | none =>
      rw [hx] at hbp
      simp at hbp
    | some cb =>
      exact Nat.le_trans (ih hx h2) (Nat.le_of_lt (hst a c b cb hla hb hx))

theorem ReachU_split {cs : List (Nat × CommitData)} {bad : List Nat}
    {x : Nat} : ∀ {v u : Nat}, ReachU cs bad v u → u ≠ x →
      ReachU cs (x :: bad) v u ∨
      ∃ c p, lookupC cs x = some c ∧ p ∈ c.parents ∧
        ReachU cs (x :: bad) p u := by
  intro v u h
  induction h with
  | refl a ha hp =>
    intro hne
    left
    refine ReachU.refl a ?_ hp
    intro hc
    rcases List.mem_cons.mp hc with hc | hc
    · exact hne hc
    · exact ha hc
  | step a c b t ha hla hb hr ih =>
    intro hne
    rcases ih hne with ih | ih
    · by_cases hax : a = x
      · subst hax
        exact Or.inr ⟨c, b, hla, hb, ih⟩
      · left
        refine ReachU.step a c b t ?_ hla hb ih
        intro hc
        rcases List.mem_cons.mp hc with hc | hc
        · exact hax hc
        · exact ha hc
    · exact Or.inr ih

theorem strictT_of_B {cs : List (Nat × CommitData)}
    (h : strictTimesB cs = true) : StrictT cs := by
  intro k ck p cp hk hp hcp
  have hmem := lookupA_mem hk
  have h1 := List.all_eq_true.mp h _ hmem
  have h2 := List.all_eq_true.mp h1 _ hp
  rw [hcp] at h2
  exact of_decide_eq_true h2

theorem wfParents_of_B {cs : List (Nat × CommitData)}
    (h : wfParentsB cs = true) : wfParents cs := by
  intro kc hkc
  exact of_decide_eq_true (List.all_eq_true.mp h kc hkc)

theorem walkInv_step {cs : List (Nat × CommitData)}
    {hid frontier visited : List Nat} {x : Nat} {c : CommitData}
    (hinv : WalkInv cs hid frontier visited)
    (hpick : pickMax cs frontier = some x)
    (_hc : lookupC cs x = some c) (hpn : c.parents.Nodup) :
    WalkInv cs hid
      (frontier.erase x ++
        c.parents.filter (freshParent cs hid frontier visited))
      (x :: visited) := by
  obtain ⟨hnd, hpres, hvis, hhid⟩ := hinv
  have hxf : x ∈ frontier := pickMax_mem hpick
  refine ⟨?_, ?_, ?_, ?_⟩
  · refine List.Nodup.append (hnd.erase x) (hpn.filter _) ?_
    intro a ha hac
    have haf : a ∈ frontier := List.mem_of_mem_erase ha
    exact (freshParent_iff.mp (List.of_mem_filter hac)).2.2.1 haf
  · intro f hf
    rcases List.mem_append.mp hf with hf | hf
    · exact hpres f (List.mem_of_mem_erase hf)
    · exact (freshParent_iff.mp (List.of_mem_filter hf)).1
  · intro f hf
    rcases List.mem_append.mp hf with hf | hf
    · intro hmem
      rcases List.mem_cons.mp hmem with he | he
      · exact ((hnd.mem_erase_iff).mp hf).1 he
      · exact hvis f (List.mem_of_mem_erase hf) he
    · obtain ⟨_, hnv, hnf, _⟩ := freshParent_iff.mp (List.of_mem_filter hf)
      intro hmem
      rcases List.mem_cons.mp hmem with he | he
      · exact hnf (he ▸ hxf)
      · exact hnv he
  · intro f hf
    rcases List.mem_append.mp hf with hf | hf
    · exact hhid f (List.mem_of_mem_erase hf)
    · exact (freshParent_iff.mp (List.of_mem_filter hf)).2.2.2

theorem walk_covered {cs : List (Nat × CommitData)} {hid : List Nat} :
    ∀ {fuel : Nat} {frontier visited : List Nat},
    WalkInv cs hid frontier visited → wfParents cs →
    ∀ y ∈ walkAux cs hid fuel frontier visited,
      ∃ v, v ∈ frontier ∧ ReachU cs (hid ++ visited) v y := by
  intro fuel
  induction fuel with
  | zero =>
    intro frontier visited _ _ y hy
    rw [walkAux_zero] at hy
    simp at hy
  | succ n ih =>
    intro frontier visited hinv hwp y hy
    cases frontier with
    | nil =>
      rw [walkAux_empty] at hy
      simp at hy
    | cons f0 rest =>
      obtain ⟨x, hpick⟩ := @pickMax_isSome cs f0 rest
      have hxf : x ∈ f0 :: rest := pickMax_mem hpick
      obtain ⟨c, hc⟩ : ∃ c, lookupC cs x = some c := by
        have hz := hinv.2.1 x hxf
        cases hx : lookupC cs x with
        | none =>
          rw [hx] at hz
          simp at hz
        | some c => exact ⟨c, rfl⟩
      rw [walkAux_succ hpick hc] at hy
      have hxbad : x ∉ hid ++ visited := by
        intro hmem
        rcases List.mem_append.mp hmem with hm | hm
        · exact hinv.2.2.2 x hxf hm
        · exact hinv.2.2.1 x hxf hm
      have hsub : ∀ a, a ∈ hid ++ visited → a ∈ hid ++ x :: visited := by
        intro a ha
        rcases List.mem_append.mp ha with hm | hm
        · exact List.mem_append_left _ hm
        · exact List.mem_append_right _ (List.mem_cons_of_mem _ hm)
      rcases List.mem_cons.mp hy with hy | hy
      · subst hy
        exact ⟨y, hxf, ReachU.refl y hxbad (by rw [hc]; rfl)⟩
      · have hpn : c.parents.Nodup := hwp (x, c) (lookupA_mem hc)
        obtain ⟨v, hvf, hr⟩ := ih (walkInv_step hinv hpick hc hpn) hwp y hy
        rcases List.mem_append.mp hvf with hvf | hvf
        · exact ⟨v, List.mem_of_mem_erase hvf, ReachU_mono hsub hr⟩
        · have hpmem : v ∈ c.parents := List.mem_of_mem_filter hvf
          exact ⟨x, hxf,
            ReachU.step x c v y hxbad hc hpmem (ReachU_mono hsub hr)⟩

theorem walk_out_props {cs : List (Nat × CommitData)} {hid : List Nat} :
    ∀ {fuel : Nat} {frontier visited : List Nat},
    WalkInv cs hid frontier visited → wfParents cs →
    (walkAux cs hid fuel frontier visited).Nodup ∧
    ∀ y ∈ walkAux cs hid fuel frontier visited,
      y ∉ visited ∧ (lookupC cs y).isSome = true ∧ y ∉ hid := by
  intro fuel
  induction fuel with
  | zero =>
    intro frontier visited _ _
    rw [walkAux_zero]
    exact ⟨List.nodup_nil, by simp⟩
  | succ n ih =>
    intro frontier visited hinv hwp
    cases frontier with
    | nil =>
      rw [walkAux_empty]
      exact ⟨List.nodup_nil, by simp⟩
    | cons f0 rest =>
      obtain ⟨x, hpick⟩ := @pickMax_isSome cs f0 rest
      have hxf : x ∈ f0 :: rest := pickMax_mem hpick
      obtain ⟨c, hc⟩ : ∃ c, lookupC cs x = some c := by
        have hz := hinv.2.1 x hxf
        cases hx : lookupC cs x with
        | none =>
          rw [hx] at hz
          simp at hz
        | some c => exact ⟨c, rfl⟩
      rw [walkAux_succ hpick hc]
      have hpn : c.parents.Nodup := hwp (x, c) (lookupA_mem hc)
      obtain ⟨hnd', hprops'⟩ := ih (walkInv_step hinv hpick hc hpn) hwp
      constructor
      · rw [List.nodup_cons]
        refine ⟨?_, hnd'⟩
        intro hxmem
        exact (hprops' x hxmem).1 (List.mem_cons_self _ _)
      · intro y hy
        rcases List.mem_cons.mp hy with hy | hy
        · subst hy
          exact ⟨hinv.2.2.1 y hxf, by rw [hc]; rfl, hinv.2.2.2 y hxf⟩
        · obtain ⟨h1, h2, h3⟩ := hprops' y hy
          exact ⟨fun hc2 => h1 (List.mem_cons_of_mem _ hc2), h2, h3⟩

theorem filter_length_le {l : List Nat} {p q : Nat → Bool}
    (himp : ∀ a, q a = true → p a = true) :
    (l.filter q).length ≤ (l.filter p).length := by
  induction l with
  | nil => simp
  | cons a rest ih =>
    by_cases hqa : q a = true
    · rw [List.filter_cons_of_pos hqa, List.filter_cons_of_pos (himp a hqa)]
      simpa using ih
    · rw [List.filter_cons_of_neg hqa]
      by_cases hpa : p a = true
      · rw [List.filter_cons_of_pos hpa]
        exact Nat.le_succ_of_le ih
      · rw [List.filter_cons_of_neg hpa]
        exact ih

theorem filter_length_lt {l : List Nat} {p q : Nat → Bool}
    (himp : ∀ a, q a = true → p a = true) {x : Nat} (hx : x ∈ l)
    (hpx : p x = true) (hqx : q x = false) :
    (l.filter q).length < (l.filter p).length := by
  induction l with
  | nil => simp at hx
  | cons a rest ih =>
    rcases List.mem_cons.mp hx with ha | ha
    · subst ha
      rw [List.filter_cons_of_pos hpx, List.filter_cons_of_neg (by
        rw [hqx]
        simp)]
      exact Nat.lt_succ_of_le (filter_length_le himp)
    · by_cases hqa : q a = true
      · rw [List.filter_cons_of_pos hqa, List.filter_cons_of_pos (himp a hqa)]
        simpa using ih ha
      · rw [List.filter_cons_of_neg hqa]
        by_cases hpa : p a = true
        · rw [List.filter_cons_of_pos hpa]
          exact Nat.lt_succ_of_lt (ih ha)
        · rw [List.filter_cons_of_neg hpa]
          exact ih ha

theorem countNV_lt {cs : List (Nat × CommitData)} {visited : List Nat}
    {x : Nat} (hx : (lookupC cs x).isSome = true) (hnv : x ∉ visited) :
    countNV cs (x :: visited) < countNV cs visited := by
  unfold countNV
  obtain ⟨c, hc⟩ : ∃ c, lookupC cs x = some c := by
    cases hz : lookupC cs x with
    | none =>
      rw [hz] at hx
      simp at hx
    | some c => exact ⟨c, rfl⟩
  refine filter_length_lt ?_ ?_ (decide_eq_true hnv) ?_
  · intro a ha
    have hz := of_decide_eq_true ha
    exact decide_eq_true (fun hmem => hz (List.mem_cons_of_mem _ hmem))
  · exact List.mem_map.mpr ⟨(x, c), lookupA_mem hc, rfl⟩
  · simp

theorem walk_complete {cs : List (Nat × CommitData)} {hid : List Nat}
    (hwp : wfParents cs) :
    ∀ {fuel : Nat} {frontier visited : List Nat} {u : Nat},
      WalkInv cs hid frontier visited → countNV cs visited ≤ fuel →
      (lookupC cs u).isSome = true → u ∉ hid → u ∉ visited →
      (∃ v, v ∈ frontier ∧ ReachU cs (hid ++ visited) v u) →
      u ∈ walkAux cs hid fuel frontier visited := by
  intro fuel
  induction fuel with
  | zero =>
    intro frontier visited u hinv hcount hup huh huv hcov
    exfalso
    have h0 : countNV cs visited = 0 := Nat.le_zero.mp hcount
    obtain ⟨c, hc⟩ : ∃ c, lookupC cs u = some c := by
      cases hz : lookupC cs u with
      | none =>
        rw [hz] at hup
        simp at hup
      | some c => exact ⟨c, rfl⟩
    have hmem : u ∈ (cs.map Prod.fst).filter
        (fun k => decide (k ∉ visited)) :=
      List.mem_filter.mpr
        ⟨List.mem_map.mpr ⟨(u, c), lookupA_mem hc, rfl⟩,
          decide_eq_true huv⟩
    unfold countNV at h0
    rw [List.length_eq_zero] at h0
    rw [h0] at hmem
    simp at hmem
  | succ n ih =>
    intro frontier visited u hinv hcount hup huh huv hcov
    obtain ⟨v, hvf, hr⟩ := hcov
    cases frontier with
    | nil => simp at hvf
    | cons f0 rest =>
      obtain ⟨x, hpick⟩ := @pickMax_isSome cs f0 rest
      have hxf : x ∈ f0 :: rest := pickMax_mem hpick
      obtain ⟨c, hc⟩ : ∃ c, lookupC cs x = some c := by
        have hz := hinv.2.1 x hxf
        cases hx : lookupC cs x with
        | none =>
          rw [hx] at hz
          simp at hz
        | some c => exact ⟨c, rfl⟩
      rw [walkAux_succ hpick hc]
      by_cases hux : u = x
      · subst hux
        exact List.mem_cons_self _ _
      · refine List.mem_cons_of_mem _ ?_
        have hpn : c.parents.Nodup := hwp (x, c) (lookupA_mem hc)
        have hinv' := walkInv_step hinv hpick hc hpn
        have hcount' : countNV cs (x :: visited) ≤ n :=
          Nat.lt_succ_iff.mp
            (Nat.lt_of_lt_of_le
              (countNV_lt (by rw [hc]; rfl) (hinv.2.2.1 x hxf)) hcount)
        have hsub2 : ∀ a, a ∈ hid ++ x :: visited →
            a ∈ x :: (hid ++ visited) := by
          intro a ha
          rcases List.mem_append.mp ha with hm | hm
          · exact List.mem_cons_of_mem _ (List.mem_append_left _ hm)
          · rcases List.mem_cons.mp hm with hm | hm
            · exact hm ▸ List.mem_cons_self _ _
            · exact List.mem_cons_of_mem _ (List.mem_append_right _ hm)
        refine ih hinv' hcount' hup huh
          (fun hm => (List.mem_cons.mp hm).elim hux huv) ?_
        rcases ReachU_split hr hux with hr' | hr'
        · have hvne : v ≠ x := by
            intro he
            exact (ReachU_head hr').1 (he ▸ List.mem_cons_self _ _)
          exact ⟨v,
            List.mem_append_left _ ((List.mem_erase_of_ne hvne).mpr hvf),
            ReachU_mono hsub2 hr'⟩
        · obtain ⟨c', p, hcx, hp, hr'⟩ := hr'
          rw [hc] at hcx
          injection hcx with hcc
          subst hcc
          obtain ⟨hpb, hpp⟩ := ReachU_head hr'
          have hpx : p ≠ x := fun he => hpb (he ▸ List.mem_cons_self _ _)
          have hpnh : p ∉ hid :=
            fun he => hpb (List.mem_cons_of_mem _ (List.mem_append_left _ he))
          have hpnv : p ∉ visited :=
            fun he =>
              hpb (List.mem_cons_of_mem _ (List.mem_append_right _ he))
          by_cases hpf : p ∈ f0 :: rest
          · exact ⟨p,
              List.mem_append_left _ ((List.mem_erase_of_ne hpx).mpr hpf),
              ReachU_mono hsub2 hr'⟩
          · refine ⟨p, List.mem_append_right _ ?_, ReachU_mono hsub2 hr'⟩
            exact List.mem_filter.mpr
              ⟨hp, freshParent_iff.mpr ⟨hpp, hpnv, hpf, hpnh⟩⟩

theorem walk_topo {cs : List (Nat × CommitData)} {hid : List Nat}
    (hst : StrictT cs) (hwp : wfParents cs) :
    ∀ {fuel : Nat} {frontier visited : List Nat},
      WalkInv cs hid frontier visited →
      ∀ {a : List Nat} {x : Nat} {b2 : List Nat},
        walkAux cs hid fuel frontier visited = a ++ x :: b2 →
        ∀ {c : CommitData} {p : Nat}, lookupC cs x = some c →
          p ∈ c.parents → p ∉ a := by
  intro fuel
  induction fuel with
  | zero =>
    intro frontier visited _ a x b2 heq
    rw [walkAux_zero] at heq
    exact absurd heq (by simp)
  | succ n ih =>
    intro frontier visited hinv a x b2 heq c p hcx hp
    cases frontier with
    | nil =>
      rw [walkAux_empty] at heq
      exact absurd heq (by simp)
    | cons f0 rest =>
      obtain ⟨x0, hpick⟩ := @pickMax_isSome cs f0 rest
      have hxf : x0 ∈ f0 :: rest := pickMax_mem hpick
      obtain ⟨c0, hc0⟩ : ∃ c0, lookupC cs x0 = some c0 := by
        have hz := hinv.2.1 x0 hxf
        cases hx : lookupC cs x0 with
        | none =>
          rw [hx] at hz
          simp at hz
        | some c0 => exact ⟨c0, rfl⟩
      rw [walkAux_succ hpick hc0] at heq
      cases a with
      | nil => simp
      | cons a0 a' =>
        rw [List.cons_append] at heq
        injection heq with h1 h2
        have hpn0 : c0.parents.Nodup := hwp (x0, c0) (lookupA_mem hc0)
        have hinv' := walkInv_step hinv hpick hc0 hpn0
        intro hmem
        rcases List.mem_cons.mp hmem with hpa | hpa
        · -- p is the first-popped commit x0, yet a parent of the
          -- later-emitted commit x: impossible under strict times
          have hpx0 : p = x0 := hpa.trans h1.symm
          subst hpx0
          have hxrec : x ∈ walkAux cs hid n
              (((f0 :: rest).erase p) ++
                c0.parents.filter (freshParent cs hid (f0 :: rest) visited))
              (p :: visited) := by
            rw [h2]
            exact List.mem_append_right _ (List.mem_cons_self _ _)
          obtain ⟨v, hvf, hr⟩ := walk_covered hinv' hwp x hxrec
          obtain ⟨cv, hcv⟩ : ∃ cv, lookupC cs v = some cv := by
            have hz := (ReachU_head hr).2
            cases hx : lookupC cs v with
            | none =>
              rw [hx] at hz
              simp at hz
            | some cv => exact ⟨cv, rfl⟩
          have ht1 : c.time ≤ cv.time := ReachU_time hst hr hcv hcx
          have ht2 : c0.time < c.time := hst x c p c0 hcx hp hc0
          rcases List.mem_append.mp hvf with hvf | hvf
          · have hvfr : v ∈ f0 :: rest := List.mem_of_mem_erase hvf
            have hle := pickMax_ge hpick v hvfr
            have hkv : keyTime cs v = cv.time := by simp [keyTime, hcv]
            have hk0 : keyTime cs p = c0.time := by simp [keyTime, hc0]
            rw [hkv, hk0] at hle
            omega
          · have hvp : v ∈ c0.parents := List.mem_of_mem_filter hvf
            have ht3 : cv.time < c0.time := hst p c0 v cv hc0 hvp hcv
            omega
        · exact absurd hpa (ih hinv' h2 hcx hp)

theorem walkInv_init {cs : List (Nat × CommitData)} {tip : Nat}
    (hcp : (lookupC cs tip).isSome = true) : WalkInv cs [] [tip] [] := by
  refine ⟨List.nodup_singleton _, ?_, ?_, ?_⟩
  · intro f hf
    rw [List.mem_singleton] at hf
    subst hf
    exact hcp
  · intro f _
    simp
  · intro f _
    simp

theorem collectE_none_eq {s : RepoState} {tip : Nat}
    (hb : headTip s = some tip)
    (hcp : (lookupC s.commits tip).isSome = true) :
    collectE s none =
      Except.ok (walkAux s.commits [] s.commits.length [tip] []) := by
  unfold collectE
  rw [hb]
  simp [hcp]

theorem countNV_nil (cs : List (Nat × CommitData)) :
    countNV cs [] = cs.length := by
  unfold countNV
  simp

/-- C7: count correctness of linear remap.  With no lower bound the
enumeration is exactly the duplicate-free list of the commits reachable
from the branch tip, and anonymize_commits reports its length; with the
lower bound equal to the tip itself the traversal is empty and
anonymize_commits returns 0 leaving the state untouched; an empty traversal
always returns count 0 with no object creation and no pointer mutation. -/
theorem linear_remap_count (ident : Identity) (b : String) (s : RepoState)
    (tip : Nat) (c : CommitData) (hb : headTip s = some tip)
    (hcp : lookupC s.commits tip = some c)
    (hwp : wfParentsB s.commits = true) :
    (∀ n, count_commits_to_anonymize s none = Except.ok n →
      ∃ L, collectE s none = Except.ok L ∧ n = L.length ∧ L.Nodup ∧
        (∀ u, u ∈ L ↔ ReachU s.commits [] tip u)) ∧
    anonymize_commits ident b (some tip) s = (Except.ok 0, s) ∧
    (∀ since, collectE s since = Except.ok [] →
      anonymize_commits ident b since s = (Except.ok 0, s)) := by
  have hcp' : (lookupC s.commits tip).isSome = true := by
    rw [hcp]
    rfl
  have hwp' : wfParents s.commits := wfParents_of_B hwp
  have hinv := @walkInv_init s.commits tip hcp'
  have hcol := collectE_none_eq hb hcp'
  refine ⟨?_, ?_, ?_⟩
  · intro n hn
    unfold count_commits_to_anonymize at hn
    rw [hcol] at hn
    simp only [Except.map] at hn
    injection hn with hn
    refine ⟨walkAux s.commits [] s.commits.length [tip] [], hcol, hn.symm,
      (walk_out_props hinv hwp').1, ?_⟩
    intro u
    constructor
    · intro hu
      obtain ⟨v, hvf, hr⟩ := walk_covered hinv hwp' u hu
      rw [List.mem_singleton] at hvf
      subst hvf
      exact ReachU_mono (fun a ha => absurd ha (List.not_mem_nil a)) hr
    · intro hru
      refine walk_complete hwp' hinv ?_ (ReachU_target hru).2 (by simp)
        (by simp) ⟨tip, List.mem_singleton_self _, ?_⟩
      · rw [countNV_nil]
      · exact ReachU_mono (fun a ha => by simp at ha) hru
  · have hpick : pickMax s.commits [tip] = some tip := rfl
    obtain ⟨n2, hn2⟩ : ∃ n2, s.commits.length = n2 + 1 := by
      cases hcs : s.commits with
      | nil => exact absurd hcs (lookupA_some_ne_nil hcp)
      | cons a l => exact ⟨l.length, by simp [hcs]⟩
    have htip : tip ∈ reachListC s.commits tip := by
      unfold reachListC
      rw [hn2, walkAux_succ hpick hcp]
      exact List.mem_cons_self _ _
    have hnil : collectE s (some tip) = Except.ok [] := by
      unfold collectE
      rw [hb]
      simp [hcp, htip, walkAux_empty]
    exact anonymize_nil hnil
  · intro since h
    exact anonymize_nil h

/-- Witness for the C7 theorem on the concrete two-commit chain. -/
theorem linear_remap_count_witness :
    (∀ n, count_commits_to_anonymize sTwo none = Except.ok n →
      ∃ L, collectE sTwo none = Except.ok L ∧ n = L.length ∧ L.Nodup ∧
        (∀ u, u ∈ L ↔ ReachU sTwo.commits [] 1 u)) ∧
    anonymize_commits exIdent "main" (some 1) sTwo = (Except.ok 0, sTwo) ∧
    (∀ since, collectE sTwo since = Except.ok [] →
      anonymize_commits exIdent "main" since sTwo = (Except.ok 0, sTwo)) :=
  linear_remap_count exIdent "main" sTwo 1
    ⟨[0], 101, "second", exIdent, exIdent, 2⟩ (by decide) (by decide)
    (by decide)

/-- C5 counterexample: on the merge history with skewed commit times, the
traversal is 3, 1, 2 (so the oldest-first processing order is 2, 1, 3) even
though commit 1 is a parent of commit 2; commit 2 is processed first while
its parent 1, which belongs to the traversal set, has no mapping entry, and
the rewritten counterpart of commit 2 (id 4) drops the parent entirely. -/
theorem linear_remap_topo_cx :
    collectE sSkew none = Except.ok [3, 1, 2] ∧
    (1 ∈ [3, 1, 2]) ∧
    lookupC sSkew.commits 2 =
      some ⟨[1], 102, "branch", exIdent, exIdent, 50⟩ ∧
    (anonymize_commits exIdent "main" none sSkew).1 = Except.ok 3 ∧
    lookupC (anonymize_commits exIdent "main" none sSkew).2.commits 4 =
      some ⟨[], 102, "branch", exIdent, exIdent, sSkew.now⟩ := by
  refine ⟨rfl, by decide, rfl, rfl, rfl⟩

/-- C5 amended: under strictly increasing commit times (every commit is
younger than each of its parents in the store), the processing order of
anonymize_commits is ancestors before descendants: when a commit is
processed, every one of its parents belonging to the traversal set appears
strictly earlier in the processing order, and therefore already has an
entry in the rewrite mapping built over that prefix.  With arbitrary
timestamps the property fails (see the counterexample). -/
theorem linear_remap_topo_order (ident : Identity) (s : RepoState)
    (tip : Nat) (c : CommitData) (L : List Nat) (hb : headTip s = some tip)
    (hcp : lookupC s.commits tip = some c)
    (hwp : wfParentsB s.commits = true)
    (hst : strictTimesB s.commits = true)
    (hcol : collectE s none = Except.ok L) :
    ∀ l1 x l2, L.reverse = l1 ++ x :: l2 →
      ∀ cx p, lookupC s.commits x = some cx → p ∈ cx.parents → p ∈ L →
        p ∈ l1 ∧
        (∀ m1 sA, anonLoop ident l1 [] s = (Except.ok m1, sA) →
          (lookupA m1 p).isSome = true) := by
  have hcp' : (lookupC s.commits tip).isSome = true := by
    rw [hcp]
    rfl
  have hwp' : wfParents s.commits := wfParents_of_B hwp
  have hst' : StrictT s.commits := strictT_of_B hst
  have hinv := @walkInv_init s.commits tip hcp'
  have hW : L = walkAux s.commits [] s.commits.length [tip] [] := by
    rw [collectE_none_eq hb hcp'] at hcol
    injection hcol with h
    exact h.symm
  intro l1 x l2 hsplit cx p hcx hp hpL
  have hL : L = l2.reverse ++ x :: l1.reverse := by
    calc L = L.reverse.reverse := (List.reverse_reverse L).symm
    _ = (l1 ++ x :: l2).reverse := by rw [hsplit]
    _ = l2.reverse ++ x :: l1.reverse := by
        simp [List.reverse_append]
  have hnot2 : p ∉ l2.reverse :=
    walk_topo hst' hwp' hinv (hW ▸ hL).symm.symm hcx hp
  have hpres : (lookupC s.commits p).isSome = true :=
    ((walk_out_props hinv hwp').2 p (hW ▸ hpL)).2.1
  obtain ⟨cp, hcp2⟩ : ∃ cp, lookupC s.commits p = some cp := by
    cases hz : lookupC s.commits p with
    | none =>
      rw [hz] at hpres
      simp at hpres
    | some cp => exact ⟨cp, rfl⟩
  have hne : p ≠ x := by
    intro he
    subst he
    rw [hcx] at hcp2
    injection hcp2 with h3
    subst h3
    exact Nat.lt_irrefl _ (hst' p cx p cx hcx hp hcx)
  have hp1 : p ∈ l1 := by
    rw [hL] at hpL
    rcases List.mem_append.mp hpL with hm | hm
    · exact absurd hm hnot2
    · rcases List.mem_cons.mp hm with hm | hm
      · exact absurd hm hne
      · exact List.mem_reverse.mp hm
  refine ⟨hp1, ?_⟩
  intro m1 sA hrunp
  exact (anonLoop_domain hrunp p).mpr (Or.inl hp1)

/-- Witness for the amended C5 theorem: on the two-commit chain with
increasing times, the parent of the tip is processed first and is mapped
before the tip is rewritten. -/
theorem linear_remap_topo_order_witness :
    (0 ∈ [0]) ∧
    (∀ m1 sA, anonLoop exIdent [0] [] sTwo = (Except.ok m1, sA) →
      (lookupA m1 0).isSome = true) :=
  linear_remap_topo_order exIdent sTwo 1
    ⟨[0], 101, "second", exIdent, exIdent, 2⟩ [1, 0] (by decide) (by rfl)
    (by decide) (by decide) (by rfl) [0] 1 [] (by decide)
    ⟨[0], 101, "second", exIdent, exIdent, 2⟩ 0 (by rfl) (by decide)
    (by decide)

/-- C10: both rewrite primitives read from HEAD, never from the branch
argument: squash_all_commits takes the tree of the commit HEAD points at and
repoints the named branch to the new root commit, and push with a branch
argument different from the current HEAD branch anonymizes the commits
reachable from HEAD and moves the named branch to the rewrite of the HEAD
tip, leaving the HEAD branch itself unmoved in both cases. -/
theorem rewrite_primitives_read_head (ident : Identity) (msg : String)
    (remote b : String) (force : Bool) (s : RepoState) (tip w : Nat)
    (c : CommitData) (hb : headTip s = some tip)
    (hcp : lookupC s.commits tip = some c) (hbne : b ≠ s.headBranch)
    (hbex : lookupBr s.branches b = some w)
    (hwp : wfParentsB s.commits = true) (hclean : s.dirty = false)
    (hfail : s.failOids = []) (hrem : remote ∈ s.remotes)
    (hnor : get_remote_tracking_branch s remote b = none) :
    ((squash_all_commits ident msg b s).1 = Except.ok () ∧
      lookupC (squash_all_commits ident msg b s).2.commits s.nextOid =
        some ⟨[], c.tree, msg, ident, ident, s.now⟩ ∧
      lookupBr (squash_all_commits ident msg b s).2.branches b =
        some s.nextOid ∧
      lookupBr (squash_all_commits ident msg b s).2.branches s.headBranch =
        some tip) ∧
    (∃ rest m s1 newTip,
      collectE s none = Except.ok (tip :: rest) ∧
      anonLoop ident (tip :: rest).reverse [] s = (Except.ok m, s1) ∧
      lookupA m tip = some newTip ∧
      (push ident remote (some b) force false s).1 = Except.ok () ∧
      lookupBr (push ident remote (some b) force false s).2.branches b =
        some newTip ∧
      lookupBr (push ident remote (some b) force false s).2.branches
        s.headBranch = some tip) := by
  have hcp' : (lookupC s.commits tip).isSome = true := by
    rw [hcp]
    rfl
  have hwp' : wfParents s.commits := wfParents_of_B hwp
  have hinv := @walkInv_init s.commits tip hcp'
  have hfree : s.nextOid ∉ s.failOids := by
    rw [hfail]
    simp
  have hneh : s.headBranch ≠ b := Ne.symm hbne
  constructor
  · rw [squash_all_spec ident msg b s tip w c hb hcp hfree hbex]
    refine ⟨rfl, lookupA_cons_self _ _ _, lookupBr_setBr_self hbex, ?_⟩
    rw [lookupBr_setBr_ne hneh]
    exact hb
  · obtain ⟨rest, hcol⟩ := collectE_none_cons hb hcp
    have hW := collectE_none_eq hb hcp'
    have hWL : tip :: rest =
        walkAux s.commits [] s.commits.length [tip] [] := by
      rw [hW] at hcol
      injection hcol with h
      exact h.symm
    have hcol' : collectE s none = Except.ok (tip :: rest) := by
      rw [hW, hWL]
    have hall : ∀ u ∈ (tip :: rest).reverse,
        (lookupC s.commits u).isSome = true := by
      intro u hu
      have hu2 : u ∈ tip :: rest := List.mem_reverse.mp hu
      rw [hWL] at hu2
      exact ((walk_out_props hinv hwp').2 u hu2).2.1
    obtain ⟨m, s1, hloop⟩ := anonLoop_ok hfail hall
    obtain ⟨newTip, hm⟩ : ∃ nt, lookupA m tip = some nt := by
      have hd := (anonLoop_domain hloop tip).mpr
        (Or.inl (List.mem_reverse.mpr (List.mem_cons_self _ _)))
      cases hz : lookupA m tip with
      | none =>
        rw [hz] at hd
        simp at hd
      | some nt => exact ⟨nt, rfl⟩
    have hfr := anonLoop_frame ident (tip :: rest).reverse [] s
    rw [hloop] at hfr
    have hb2 : lookupBr s1.branches b = some w := by
      rw [hfr.1]
      exact hbex
    have hanon := anonymize_ok_set (b := b) hcol' hloop hm hb2
    have hcount : count_commits_to_anonymize s none =
        Except.ok (tip :: rest).length := by
      unfold count_commits_to_anonymize
      rw [hcol']
      rfl
    have hcb : current_branchE s = Except.ok s.headBranch := by
      unfold current_branchE
      rw [show lookupBr s.branches s.headBranch = some tip from hb]
    have hrem1 : remote ∈ s1.remotes := by
      rw [hfr.2.2.2.2.1]
      exact hrem
    have hpush : push ident remote (some b) force false s =
        (Except.ok (),
          { s1 with
            branches := setBr s1.branches b newTip
            reflog := "Anonymized commits" :: s1.reflog
            pushes := (remote, b, force) :: s1.pushes }) := by
      unfold push
      rw [hcb]
      simp only [Option.getD_some, has_uncommitted_changes, hclean,
        Bool.false_eq_true, if_false, hnor, hcount, List.length_cons,
        Nat.succ_ne_zero, hanon]
      unfold push_to_remote
      rw [if_pos hrem1]
    refine ⟨rest, m, s1, newTip, hcol', hloop, hm, ?_, ?_, ?_⟩
    · rw [hpush]
    · rw [hpush]
      exact lookupBr_setBr_self hb2
    · rw [hpush]
      have := @lookupBr_setBr_ne s1.branches b s.headBranch newTip hneh
      rw [this, hfr.1]
      exact hb

/-- Witness for the C10 theorem on a two-branch repository whose branch
argument names the non-HEAD branch. -/
theorem rewrite_primitives_read_head_witness :
    ((squash_all_commits exIdent "Init" "other" sTwoBr).1 = Except.ok () ∧
      lookupC (squash_all_commits exIdent "Init" "other" sTwoBr).2.commits
        sTwoBr.nextOid =
        some ⟨[], 101, "Init", exIdent, exIdent, sTwoBr.now⟩ ∧
      lookupBr (squash_all_commits exIdent "Init" "other"
        sTwoBr).2.branches "other" = some sTwoBr.nextOid ∧
      lookupBr (squash_all_commits exIdent "Init" "other"
        sTwoBr).2.branches sTwoBr.headBranch = some 1) ∧
    (∃ rest m s1 newTip,
      collectE sTwoBr none = Except.ok (1 :: rest) ∧
      anonLoop exIdent (1 :: rest).reverse [] sTwoBr =
        (Except.ok m, s1) ∧
      lookupA m 1 = some newTip ∧
      (push exIdent "origin" (some "other") false false sTwoBr).1 =
        Except.ok () ∧
      lookupBr (push exIdent "origin" (some "other") false false
        sTwoBr).2.branches "other" = some newTip ∧
      lookupBr (push exIdent "origin" (some "other") false false
        sTwoBr).2.branches sTwoBr.headBranch = some 1) :=
  rewrite_primitives_read_head exIdent "Init" "origin" "other" false sTwoBr
    1 0 ⟨[0], 101, "second", exIdent, exIdent, 2⟩ (by decide) (by rfl)
    (by decide) (by decide) (by decide) (by decide) (by rfl) (by decide)
    (by rfl)

end GitAnon
